import Mathlib

/-!
Verification of the manifest repository and reconciliation engine of
`scripts/app.py` (declarative app manager over `apps.toml`).

The Python code is shallowly embedded: a tomlkit `TOMLDocument` becomes an
association list of groups, each group a tomlkit `Table`, i.e. an association
list of keys to items; an item carries its string value (the source) and its
inline-comment text (the description).  All string primitives used by the code
(`str.casefold`, `str.strip`, `str.splitlines`, lexicographic comparison used
by `sorted`) are re-implemented structurally over `String.data` so that every
definition evaluates inside the kernel.  `str.casefold` is modelled as
character-wise lowercasing, which agrees with CPython on the ASCII identifiers
this manifest format uses.
-/

namespace DotApp

/-- Character-wise lowercase; models `str.casefold` / `str.lower` on the
ASCII-range keys and group names used by `apps.toml`. -/
def lowerStr (s : String) : String := ⟨s.data.map Char.toLower⟩

/-- Lexicographic comparison of char lists by code point, as Python compares
strings. -/
def charListLE : List Char → List Char → Bool
  | [], _ => true
  | _ :: _, [] => false
  | a :: as, b :: bs =>
    if a.toNat < b.toNat then true
    else if b.toNat < a.toNat then false
    else charListLE as bs

/-- Python `a <= b` on strings (code-point lexicographic). -/
def strLE (a b : String) : Bool := charListLE a.data b.data

/-- Drop leading whitespace characters. -/
def dropLeadingWS : List Char → List Char
  | [] => []
  | c :: rest => if c.isWhitespace then dropLeadingWS rest else c :: rest

/-- Python `str.strip()`: remove leading and trailing whitespace. -/
def pystrip (s : String) : String :=
  ⟨(dropLeadingWS ((dropLeadingWS s.data).reverse)).reverse⟩

/-- Python `str.splitlines()` restricted to the `\n`, `\r`, `\r\n` line
terminators (the only ones that arise in this manifest's descriptions). -/
def splitlinesGo : List Char → List Char → List String
  | [], acc => if acc.isEmpty then [] else [⟨acc.reverse⟩]
  | '\r' :: '\n' :: rest, acc => (⟨acc.reverse⟩ : String) :: splitlinesGo rest []
  | '\n' :: rest, acc => (⟨acc.reverse⟩ : String) :: splitlinesGo rest []
  | '\r' :: rest, acc => (⟨acc.reverse⟩ : String) :: splitlinesGo rest []
  | c :: rest, acc => splitlinesGo rest (c :: acc)

def splitlines (s : String) : List String := splitlinesGo s.data []

/-! ## Data model

`Item` models a tomlkit string item: its `value` is the source name and
`comment` the raw inline-comment text attached by
`value.comment(sanitize_toml_inline_comment(description))`.  `tomlkit` stores
the comment as `"# " ++ text`; `AppsRepository.get_item_comment` strips the
leading `#` marks and surrounding whitespace again, which composes to
`pystrip` of the sanitized text, so we keep the sanitized text itself. -/

structure Item where
  value : String
  comment : String
deriving DecidableEq, Repr

/-- A tomlkit `Table`: ordered keyed items. -/
abbrev Table := List (String × Item)

/-- A tomlkit `TOMLDocument`: ordered named group tables.  Top-level non-table
items never occur in `apps.toml` and are not modelled
(`iter_group_tables` skips them). -/
abbrev Document := List (String × Table)

/-- `AppRecord` of `app.py`. -/
structure AppRecord where
  group : String
  key : String
  source : String
  description : String
deriving DecidableEq, Repr

/-- `OperationResult` of `app.py`. -/
structure OperationResult where
  success : Bool
  message : String
  skipped : Bool
deriving DecidableEq, Repr

/-- `OperationResult.ok`. -/
def OperationResult.okR (message : String) : OperationResult :=
  ⟨true, message, false⟩

/-- `OperationResult.skipped_result`. -/
def OperationResult.skippedR (message : String) : OperationResult :=
  ⟨true, message, true⟩

/-- `OperationResult.failed`. -/
def OperationResult.failedR (message : String) : OperationResult :=
  ⟨false, message, false⟩

/-- `AddAppOutcome` of `app.py`. -/
structure AddAppOutcome where
  app_key : String
  group : String
  description : String
  existed : Bool
  moved_from : Option String
  previous_source : Option String
deriving DecidableEq, Repr

/-- `AddAppOutcome.source_changed`: `bool(self.previous_source)`. -/
def AddAppOutcome.source_changed (o : AddAppOutcome) : Bool :=
  match o.previous_source with
  | none => false
  | some s => !(s == "")

/-- `RemoveAppOutcome` of `app.py`. -/
structure RemoveAppOutcome where
  removed : Bool
  app_key : Option String
  source : Option String
  group : Option String
deriving DecidableEq, Repr

/-! ## AppsRepository -/

/-- `AppsRepository.normalize_key`: `key.casefold()`. -/
def normalize_key (key : String) : String := lowerStr key

/-- `AppsRepository.sanitize_toml_inline_comment`:
`" ".join(comment.splitlines())`. -/
def sanitize_toml_inline_comment (comment : String) : String :=
  String.intercalate " " (splitlines comment)

/-- `AppsRepository.get_item_value` on a string item. -/
def get_item_value (item : Item) : String := item.value

/-- `AppsRepository.get_item_comment`: strips the `#` marker and surrounding
whitespace from the stored inline comment. -/
def get_item_comment (item : Item) : String := pystrip item.comment

/-- The item built by `add_or_update` for a source and (unsanitized)
description. -/
def mkItem (source description : String) : Item :=
  ⟨source, sanitize_toml_inline_comment description⟩

/-- Ordering used by `AppsRepository.sorted_table`:
`sorted(items, key=lambda item: item[0].lower())`. -/
def tableLE (a b : String × Item) : Prop :=
  strLE (lowerStr a.1) (lowerStr b.1) = true

instance : DecidableRel tableLE := fun a b =>
  inferInstanceAs (Decidable (strLE (lowerStr a.1) (lowerStr b.1) = true))

/-- `AppsRepository.sorted_table`: a stable sort of the items by
case-insensitive key (Python's `sorted` is stable; so is
`List.insertionSort`). -/
def sorted_table (items : Table) : Table :=
  List.insertionSort tableLE items

/-- `AppsRepository.resolve_group_name`.  The Python dict comprehension maps
each normalized existing group name to the group, later entries overwriting
earlier ones, so lookup returns the last group whose normalized name
matches. -/
def resolve_group_name (document : Document) (group : String) :
    Except String String :=
  let resolved := pystrip group
  if resolved = "" then .error "Group name cannot be empty."
  else
    match (document.filter
        (fun gt => normalize_key gt.1 == normalize_key resolved)).getLast? with
    | some gt => .ok gt.1
    | none => .ok resolved

/-- The (group, key) pairs scanned by `validate_no_duplicates`, in document
order. -/
def group_key_pairs (document : Document) : List (String × String) :=
  document.flatMap (fun gt => gt.2.map (fun e => (gt.1, e.1)))

/-- The scan inside `AppsRepository.validate_no_duplicates`: `seen` maps a
normalized key to the group of its first occurrence; a later occurrence in a
different group marks the document as having duplicates.  The Python loop
keeps scanning to collect every offender, but it raises exactly when at least
one such pair exists, which is what the Boolean records. -/
def scanCross : List (String × String) → List (String × String) → Bool
  | [], _ => false
  | (group, key) :: rest, seen =>
    match seen.find? (fun p => p.1 == normalize_key key) with
    | some p => if p.2 == group then scanCross rest seen else true
    | none => scanCross rest ((normalize_key key, group) :: seen)

/-- Whether `AppsRepository.validate_no_duplicates` raises `AppManagerError`
on this document. -/
def validate_no_duplicates_fails (document : Document) : Bool :=
  scanCross (group_key_pairs document) []

/-- `AppsRepository.load` on an existing, already-parsed file: validates and
returns the document unchanged; it never writes the file in this branch. -/
def load (document : Document) : Except String Document :=
  if validate_no_duplicates_fails document then
    .error "Duplicate apps found in apps.toml. Each app must be globally unique."
  else .ok document

/-- Inner loop of `AppsRepository.find_app` over one group's table: first key
whose normalization matches. -/
def findInTable (group : String) (table : Table) (app : String) :
    Option AppRecord :=
  match table with
  | [] => none
  | (key, item) :: rest =>
    if normalize_key key == normalize_key app then
      some ⟨group, key, get_item_value item, get_item_comment item⟩
    else findInTable group rest app

/-- `AppsRepository.find_app`: case-insensitive key search across all groups
in document order. -/
def find_app : Document → String → Option AppRecord
  | [], _ => none
  | (group, table) :: rest, app =>
    match findInTable group table app with
    | some r => some r
    | none => find_app rest app

/-- `document[group] = table` on a tomlkit document: replace in place if the
group exists, else append. -/
def set_key (document : Document) (group : String) (table : Table) :
    Document :=
  if document.any (fun gt => gt.1 == group) then
    document.map (fun gt => if gt.1 == group then (group, table) else gt)
  else document ++ [(group, table)]

/-- `AppsRepository.remove_app_from_group`: returns the updated document and
whether a removal happened, deleting the group when its table empties. -/
def remove_app_from_group (document : Document) (group appKey : String) :
    Document × Bool :=
  match document.find? (fun gt => gt.1 == group) with
  | none => (document, false)
  | some gt =>
    if gt.2.all (fun p => !(p.1 == appKey)) then (document, false)
    else
      let items := gt.2.filter (fun p => !(p.1 == appKey))
      if items.isEmpty then
        (document.filter (fun g => !(g.1 == group)), true)
      else
        (document.map
          (fun g => if g.1 == group then (group, sorted_table items) else g),
          true)

/-- Body of `AppsRepository.upsert_value` before re-sorting: replace the first
exactly-matching key in place, else append. -/
def upsertItems : Table → String → Item → Table × Bool
  | [], key, value => ([(key, value)], false)
  | p :: rest, key, value =>
    if p.1 == key then ((key, value) :: rest, true)
    else
      let r := upsertItems rest key value
      (p :: r.1, r.2)

/-- `AppsRepository.upsert_value`. -/
def upsert_value (table : Table) (key : String) (value : Item) :
    Table × Bool :=
  let r := upsertItems table key value
  (sorted_table r.1, r.2)

/-- The `group_table = document.get(target_group)` / `if group_table is None`
step of `add_or_update`: create an empty table for the target group when it
does not exist yet. -/
def ensure_group (document : Document) (group : String) : Document :=
  if document.any (fun gt => gt.1 == group) then document
  else set_key document group []

/-- `document.get(group)` for a group known to exist (after `ensure_group`),
defaulting to the empty table. -/
def tableFor (document : Document) (group : String) : Table :=
  ((document.find? (fun gt => gt.1 == group)).map Prod.snd).getD []

/-- `AppsRepository.add_or_update`.  `resolve_group_name` is evaluated before
any mutation (in the Python code it runs right after the `find_app` lookup),
so hoisting it first is observationally identical.  The `is not a Table`
guard of the Python code is unrepresentable here because every top-level
entry of the modelled document is a table. -/
def add_or_update (document : Document)
    (app source group description : String) :
    Except String (AddAppOutcome × Document) :=
  match resolve_group_name document group with
  | .error e => .error e
  | .ok targetGroup =>
    let existing := find_app document app
    let afterRemove :
        Except String (Document × String × Option String × Option String) :=
      match existing with
      | none => .ok (document, app, none, none)
      | some r =>
        if r.group == targetGroup then
          .ok (document, r.key, none, some r.source)
        else
          let rem := remove_app_from_group document r.group r.key
          if rem.2 then .ok (rem.1, r.key, some r.group, some r.source)
          else .error "App was detected in its group but could not be removed."
    match afterRemove with
    | .error e => .error e
    | .ok (d1, canonicalKey, movedFrom, previousSource) =>
      let d2 := ensure_group d1 targetGroup
      let up := upsert_value (tableFor d2 targetGroup) canonicalKey
        (mkItem source description)
      .ok (⟨canonicalKey, targetGroup, description, up.2, movedFrom,
            previousSource⟩, set_key d2 targetGroup up.1)

/-- `AppsRepository.remove`. -/
def removeApp (document : Document) (app : String) :
    RemoveAppOutcome × Document :=
  match find_app document app with
  | none => (⟨false, none, none, none⟩, document)
  | some r =>
    let rem := remove_app_from_group document r.group r.key
    if rem.2 then (⟨true, some r.key, some r.source, some r.group⟩, rem.1)
    else (⟨false, none, none, none⟩, document)

/-! ## CommandRunner

`CommandRunner.run` is modelled as a function of the completed subprocess: the
external process outcome (exit code, stdout, stderr) is an input, and a raised
`AppManagerError` is an `Except.error`. -/

/-- `subprocess.CompletedProcess` as observed by `CommandRunner.run`. -/
structure CompletedProcess where
  returncode : Int
  stdout : String
  stderr : String
deriving DecidableEq, Repr

/-- The `details` string `CommandRunner.run` puts in its error. -/
def command_failed_details (cp : CompletedProcess) : String :=
  if pystrip cp.stderr ≠ "" then pystrip cp.stderr
  else if pystrip cp.stdout ≠ "" then pystrip cp.stdout
  else "Command failed with exit code " ++ toString cp.returncode

/-- `CommandRunner.run`: raises `AppManagerError` when `check` is set and the
exit code is non-zero. -/
def runner_run (check : Bool) (command : List String) (cp : CompletedProcess) :
    Except String CompletedProcess :=
  if check && !(cp.returncode == 0) then
    .error ("Command failed: " ++ String.intercalate " " command ++ "\n" ++
      command_failed_details cp)
  else .ok cp

/-- `BrewSourceService.uninstall` (shared by the cask and formula strategies):
`runner.run([brew, "uninstall", list_flag, app])` with `check=True`, then
`OperationResult.ok("")`. -/
def brew_uninstall (listFlag app : String) (cp : CompletedProcess) :
    Except String OperationResult :=
  match runner_run true ["brew", "uninstall", listFlag, app] cp with
  | .error m => .error m
  | .ok _ => .ok (OperationResult.okR "")

/-- `UvSourceService.uninstall`: `runner.run([uv, "tool", "uninstall", app])`
with `check=True`, then `OperationResult.ok("")`. -/
def uv_uninstall (app : String) (cp : CompletedProcess) :
    Except String OperationResult :=
  match runner_run true ["uv", "tool", "uninstall", app] cp with
  | .error m => .error m
  | .ok _ => .ok (OperationResult.okR "")

/-- `MasSourceService.uninstall`: runs with `check=False` and converts a
non-zero exit code to a typed failed result. -/
def mas_uninstall (app : String) (cp : CompletedProcess) :
    Except String OperationResult :=
  match runner_run false ["mas", "uninstall", app] cp with
  | .error m => .error m
  | .ok r =>
    if !(r.returncode == 0) then
      .ok (OperationResult.failedR
        ("Failed to uninstall " ++ app ++ ". Please uninstall it manually."))
    else .ok (OperationResult.okR "")

/-! ## BaseSourceService template methods

A strategy is modelled by its observable data: the alias expansion, the
installed listing (the parsed output of `list_installed`), the optional
pre-install check, and the outcomes of the native `install`/`uninstall`
subcommands (`Except.error` models a raised `AppManagerError`). -/

structure Strategy where
  source_name : String
  managed_aliases : String → List String
  installed_map : List (String × String)
  pre_install_check : String → Option OperationResult
  install_run : String → Except String Unit
  uninstall_run : String → Except String OperationResult

/-- The identifiers and display names of `list_installed()`, the token set
`is_installed` matches against. -/
def listingTokens (s : Strategy) : List String :=
  s.installed_map.map Prod.fst ++ s.installed_map.map Prod.snd

/-- `BaseSourceService.is_installed`: some casefolded alias occurs among the
casefolded listing tokens. -/
def is_installed (s : Strategy) (app : String) : Bool :=
  ((s.managed_aliases app).map normalize_key).any
    (fun a => ((listingTokens s).map normalize_key).contains a)

/-- `BaseSourceService.ensure_installed`; the Boolean records whether
`install` was invoked. -/
def ensure_installed (s : Strategy) (app : String) :
    Except String OperationResult × Bool :=
  if is_installed s app then
    (.ok (OperationResult.skippedR
      (app ++ " is already installed via " ++ s.source_name ++ ".")), false)
  else
    match s.pre_install_check app with
    | some preflight => (.ok preflight, false)
    | none =>
      match s.install_run app with
      | .error m => (.error m, true)
      | .ok _ => (.ok (OperationResult.okR ("Installed " ++ app ++ ".")), true)

/-- `BaseSourceService.ensure_uninstalled`; the Boolean records whether
`uninstall` was invoked. -/
def ensure_uninstalled (s : Strategy) (app : String) :
    Except String OperationResult × Bool :=
  if !(is_installed s app) then
    (.ok (OperationResult.skippedR
      (app ++ " is not installed; skipping uninstall.")), false)
  else
    match s.uninstall_run app with
    | .error m => (.error m, true)
    | .ok r =>
      if r.success && !r.skipped then
        (.ok (OperationResult.okR ("Uninstalled " ++ app ++ ".")), true)
      else (.ok r, true)

/-! ## SourceRegistry and providers -/

/-- The registered source names, in `__init_subclass__` registration order. -/
def registered_sources : List String := ["cask", "formula", "uv", "mas"]

/-- `provider_name` class attribute of each strategy (empty when unset). -/
def provider_name : String → String
  | "cask" => "brew"
  | "formula" => "brew"
  | _ => ""

/-- `BaseSourceService.maintenance_key`: `provider_name or source_name`. -/
def maintenance_key (source : String) : String :=
  if provider_name source = "" then source else provider_name source

/-- `SourceRegistry.create` composed with `maintenance_key`: raises
`AppManagerError` for a source outside the registered set. -/
def get_service_key (source : String) : Except String String :=
  if registered_sources.contains source then .ok (maintenance_key source)
  else .error ("Unknown source " ++ source ++ ".")

/-- Python's `sorted` on a list of strings. -/
def sorted_strings (l : List String) : List String :=
  List.insertionSort (fun a b => strLE a b = true) l

/-- Loop body of `AppManagerFacade._upgrade_sources`: walk the sorted enabled
sources, call `upgrade_all` once per unseen maintenance key.  Returns the
sequence of providers whose `upgrade_all` ran. -/
def upgrade_go : List String → List String → Except String (List String)
  | [], _ => .ok []
  | s :: rest, seen =>
    match get_service_key s with
    | .error e => .error e
    | .ok key =>
      if seen.contains key then upgrade_go rest seen
      else
        match upgrade_go rest (key :: seen) with
        | .error e => .error e
        | .ok more => .ok (key :: more)

/-- `AppManagerFacade._upgrade_sources`: `enabled` stands for the
`enabled_sources` set, so it is deduplicated before the sorted iteration. -/
def upgrade_sources (enabled : List String) : Except String (List String) :=
  upgrade_go (sorted_strings enabled.dedup) []

/-! ## AppManagerFacade.add_app -/

/-- The behaviour of the strategy calls `add_app` makes during its install
phase: `ensure_uninstalled` on the previous source's service and
`ensure_installed` on the new source's service, each taking the source and the
app key. -/
structure SvcBehavior where
  ensure_uninstalled_prev : String → String → Except String OperationResult
  ensure_installed_new : String → String → Except String OperationResult

/-- The `try`/`except AppManagerError` block of `AppManagerFacade.add_app`:
returns the final `failure_message`.  A raised error inside the block skips
the rest of the block; a failed uninstall result is remembered but install is
still attempted, and a later install failure overwrites the message. -/
def install_phase (svc : SvcBehavior) (previousSource : Option String)
    (source appKey : String) : Option String :=
  let needUninstall :=
    match previousSource with
    | some prev => !(prev == "") && !(prev == source)
    | none => false
  if needUninstall then
    match svc.ensure_uninstalled_prev (previousSource.getD "") appKey with
    | .error m => some m
    | .ok r =>
      let f1 := if r.success then none else some r.message
      match svc.ensure_installed_new source appKey with
      | .error m => some m
      | .ok r2 => if r2.success then f1 else some r2.message
  else
    match svc.ensure_installed_new source appKey with
    | .error m => some m
    | .ok r2 => if r2.success then none else some r2.message

/-- The observable outcome of one `add_app` invocation: whether it raised,
the on-disk manifest afterwards, and how many times `AppsRepository.save`
ran. -/
structure AddAppState where
  result : Except String Unit
  disk : Document
  save_calls : Nat
deriving Repr

/-- `AppManagerFacade.add_app` with an explicit `--group` and an
already-inferred description (group picking and description inference run
before any mutation and can only abort with the manifest untouched).  `disk`
is the manifest file's parsed content; only `AppsRepository.save` changes
it. -/
def add_app (disk : Document) (app source group description : String)
    (noInstall : Bool) (svc : SvcBehavior) : AddAppState :=
  if validate_no_duplicates_fails disk then
    ⟨.error "Duplicate apps found in apps.toml.", disk, 0⟩
  else
    match resolve_group_name disk group with
    | .error m => ⟨.error m, disk, 0⟩
    | .ok selectedGroup =>
      match add_or_update disk app source selectedGroup description with
      | .error m => ⟨.error m, disk, 0⟩
      | .ok od =>
        if noInstall then ⟨.ok (), od.2, 1⟩
        else
          match install_phase svc od.1.previous_source source od.1.app_key with
          | some m => ⟨.error m, disk, 0⟩
          | none => ⟨.ok (), od.2, 1⟩

/-! ## Sync: install-declared pass -/

/-- The per-record loop of `AppManagerFacade._install_declared`: for each
record whose source is enabled, call `ensure_installed` on its service.  `svc`
gives that call's outcome per (source, key); an `Except.error` is a raised
`AppManagerError`, which propagates out of the loop.  Returns the per-item
results actually produced, and the raised message if any. -/
def install_declared (enabled : List String)
    (svc : String → String → Except String OperationResult) :
    List AppRecord → List (String × OperationResult) × Option String
  | [] => ([], none)
  | r :: rest =>
    if enabled.contains r.source then
      match svc r.source r.key with
      | .error m => ([], some m)
      | .ok res =>
        let tail := install_declared enabled svc rest
        ((r.key, res) :: tail.1, tail.2)
    else install_declared enabled svc rest

/-! ## Order facts about the comparison used by `sorted` -/

theorem charListLE_total : ∀ a b : List Char,
    charListLE a b = true ∨ charListLE b a = true
  | [], _ => .inl rfl
  | _ :: _, [] => .inr rfl
  | a :: as, b :: bs => by
    rcases Nat.lt_trichotomy a.toNat b.toNat with h | h | h
    · left; simp [charListLE, h]
    · have h1 : ¬ a.toNat < b.toNat := by omega
      have h2 : ¬ b.toNat < a.toNat := by omega
      simpa [charListLE, h1, h2] using charListLE_total as bs
    · right
      simp [charListLE, h]

theorem charListLE_trans : ∀ a b c : List Char,
    charListLE a b = true → charListLE b c = true → charListLE a c = true
  | [], _, _, _, _ => rfl
  | _ :: _, [], _, h, _ => by simp [charListLE] at h
  | _ :: _, _ :: _, [], _, h2 => by simp [charListLE] at h2
  | a :: as, b :: bs, c :: cs, h1, h2 => by
    by_cases hxy : a.toNat < b.toNat
    · by_cases hyz : b.toNat < c.toNat
      · have h : a.toNat < c.toNat := by omega
        simp [charListLE, h]
      · by_cases hzy : c.toNat < b.toNat
        · simp [charListLE, hyz, hzy] at h2
        · have h : a.toNat < c.toNat := by omega
          simp [charListLE, h]
    · by_cases hyx : b.toNat < a.toNat
      · simp [charListLE, hxy, hyx] at h1
      · simp only [charListLE, if_neg hxy, if_neg hyx] at h1
        by_cases hyz : b.toNat < c.toNat
        · have h : a.toNat < c.toNat := by omega
          simp [charListLE, h]
        · by_cases hzy : c.toNat < b.toNat
          · simp [charListLE, hyz, hzy] at h2
          · simp only [charListLE, if_neg hyz, if_neg hzy] at h2
            have hxz : ¬ a.toNat < c.toNat := by omega
            have hzx : ¬ c.toNat < a.toNat := by omega
            simp only [charListLE, if_neg hxz, if_neg hzx]
            exact charListLE_trans as bs cs h1 h2

instance : IsTotal (String × Item) tableLE :=
  ⟨fun x y => charListLE_total (lowerStr x.1).data (lowerStr y.1).data⟩

instance : IsTrans (String × Item) tableLE :=
  ⟨fun _ _ _ h1 h2 => charListLE_trans _ _ _ h1 h2⟩

theorem sorted_table_sorted (items : Table) :
    List.Sorted tableLE (sorted_table items) :=
  List.sorted_insertionSort tableLE items

theorem sorted_table_perm (items : Table) : (sorted_table items).Perm items :=
  List.perm_insertionSort tableLE items

theorem sorted_table_of_sorted {items : Table}
    (h : List.Sorted tableLE items) : sorted_table items = items :=
  List.Sorted.insertionSort_eq h

/-! ## C1: duplicate validation

The specification-level condition: two records anywhere in the manifest with
equal case-folded keys sitting in two different groups. -/

def CrossDup (pairs : List (String × String)) : Prop :=
  ∃ p ∈ pairs, ∃ q ∈ pairs,
    normalize_key p.2 = normalize_key q.2 ∧ p.1 ≠ q.1

/-- Boolean version of `CrossDup`. -/
def has_cross_group_duplicate (pairs : List (String × String)) : Bool :=
  pairs.any (fun p => pairs.any (fun q =>
    normalize_key p.2 == normalize_key q.2 && !(p.1 == q.1)))

theorem has_cross_group_duplicate_iff (pairs : List (String × String)) :
    has_cross_group_duplicate pairs = true ↔ CrossDup pairs := by
  simp [has_cross_group_duplicate, CrossDup, List.any_eq_true]

theorem find_self_of_nodup_fst :
    ∀ (seen : List (String × String)) (e : String × String),
    (seen.map Prod.fst).Nodup → e ∈ seen →
    seen.find? (fun p => p.1 == e.1) = some e
  | [], e, _, hmem => by simp at hmem
  | x :: rest, e, hnd, hmem => by
    simp only [List.map_cons, List.nodup_cons] at hnd
    rcases List.mem_cons.mp hmem with rfl | hmem'
    · simp [List.find?]
    · have hne : ¬ (x.1 == e.1) = true := by
        intro hb
        exact hnd.1 (by
          have : x.1 = e.1 := by simpa using hb
          rw [this]
          exact List.mem_map.mpr ⟨e, hmem', rfl⟩)
      simp only [List.find?, hne]
      exact find_self_of_nodup_fst rest e hnd.2 hmem'

theorem nodup_fst_cons_of_find?_none {seen : List (String × String)}
    {n g : String} (hnd : (seen.map Prod.fst).Nodup)
    (hf : seen.find? (fun p => p.1 == n) = none) :
    (((n, g) :: seen).map Prod.fst).Nodup := by
  rw [List.map_cons]
  refine List.nodup_cons.mpr ⟨?_, hnd⟩
  intro hin
  rcases List.mem_map.mp hin with ⟨x, hx, hfst⟩
  have := List.find?_eq_none.mp hf x hx
  simp [hfst] at this

theorem scanCross_true_sound :
    ∀ (pairs seen : List (String × String)),
    scanCross pairs seen = true →
    (∃ gk ∈ pairs, ∃ e ∈ seen, e.1 = normalize_key gk.2 ∧ e.2 ≠ gk.1) ∨
      CrossDup pairs
  | [], _, h => by simp [scanCross] at h
  | (g, k) :: rest, seen, h => by
    simp only [scanCross] at h
    cases hf : seen.find? (fun p => p.1 == normalize_key k) with
    | some p =>
      rw [hf] at h
      have h' : (if (p.2 == g) = true then scanCross rest seen else true)
          = true := h
      by_cases hpg : (p.2 == g) = true
      · rw [if_pos hpg] at h'
        rcases scanCross_true_sound rest seen h' with ⟨gk, hgk, e, he, h1, h2⟩ | hc
        · exact .inl ⟨gk, List.mem_cons_of_mem _ hgk, e, he, h1, h2⟩
        · rcases hc with ⟨p', hp', q', hq', hh⟩
          exact .inr ⟨p', List.mem_cons_of_mem _ hp',
            q', List.mem_cons_of_mem _ hq', hh⟩
      · have hfs := List.find?_some hf
        have hmem := List.mem_of_find?_eq_some hf
        refine .inl ⟨(g, k), List.mem_cons_self _ _, p, hmem,
          by simpa using hfs, ?_⟩
        intro hcon
        exact hpg (by simp [hcon])
    | none =>
      rw [hf] at h
      have h' : scanCross rest ((normalize_key k, g) :: seen) = true := h
      rcases scanCross_true_sound rest ((normalize_key k, g) :: seen) h' with
        ⟨gk, hgk, e, he, h1, h2⟩ | hc
      · rcases List.mem_cons.mp he with rfl | he'
        · refine .inr ⟨(g, k), List.mem_cons_self _ _, gk,
            List.mem_cons_of_mem _ hgk, h1, h2⟩
        · exact .inl ⟨gk, List.mem_cons_of_mem _ hgk, e, he', h1, h2⟩
      · rcases hc with ⟨p', hp', q', hq', hh⟩
        exact .inr ⟨p', List.mem_cons_of_mem _ hp',
          q', List.mem_cons_of_mem _ hq', hh⟩

theorem scanCross_seen_complete :
    ∀ (pairs seen : List (String × String)),
    (seen.map Prod.fst).Nodup →
    (∃ gk ∈ pairs, ∃ e ∈ seen, e.1 = normalize_key gk.2 ∧ e.2 ≠ gk.1) →
    scanCross pairs seen = true
  | [], _, _, hex => by simp at hex
  | (g, k) :: rest, seen, hnd, hex => by
    rcases hex with ⟨gk, hgk, e, he, h1, h2⟩
    simp only [scanCross]
    rcases List.mem_cons.mp hgk with rfl | hgk'
    · have hfind : seen.find? (fun p => p.1 == normalize_key k) = some e := by
        have := find_self_of_nodup_fst seen e hnd he
        simpa [h1] using this
      rw [hfind]
      show (if (e.2 == g) = true then scanCross rest seen else true) = true
      have hne : ¬ (e.2 == g) = true := by
        intro hb
        exact h2 (by simpa using hb)
      rw [if_neg hne]
    · cases hf : seen.find? (fun p => p.1 == normalize_key k) with
      | some p =>
        show (if (p.2 == g) = true then scanCross rest seen else true) = true
        by_cases hpg : (p.2 == g) = true
        · rw [if_pos hpg]
          exact scanCross_seen_complete rest seen hnd ⟨gk, hgk', e, he, h1, h2⟩
        · rw [if_neg hpg]
      | none =>
        show scanCross rest ((normalize_key k, g) :: seen) = true
        exact scanCross_seen_complete rest ((normalize_key k, g) :: seen)
          (nodup_fst_cons_of_find?_none hnd hf)
          ⟨gk, hgk', e, List.mem_cons_of_mem _ he, h1, h2⟩

theorem scanCross_cross_complete :
    ∀ (pairs seen : List (String × String)),
    (seen.map Prod.fst).Nodup → CrossDup pairs → scanCross pairs seen = true
  | [], _, _, hc => by simp [CrossDup] at hc
  | (g, k) :: rest, seen, hnd, hc => by
    rcases hc with ⟨p, hp, q, hq, hnorm, hgr⟩
    simp only [scanCross]
    have step :
        ∀ q', q' ∈ rest → normalize_key k = normalize_key q'.2 → g ≠ q'.1 →
          (match seen.find? (fun x => x.1 == normalize_key k) with
            | some x => if x.2 == g then scanCross rest seen else true
            | none => scanCross rest ((normalize_key k, g) :: seen)) = true := by
      intro q' hq' hnorm' hgr'
      cases hf : seen.find? (fun x => x.1 == normalize_key k) with
      | some x =>
        show (if (x.2 == g) = true then scanCross rest seen else true) = true
        by_cases hpg : (x.2 == g) = true
        · rw [if_pos hpg]
          refine scanCross_seen_complete rest seen hnd
            ⟨q', hq', x, List.mem_of_find?_eq_some hf, ?_, ?_⟩
          · have := List.find?_some hf
            have hx : x.1 = normalize_key k := by simpa using this
            rw [hx, hnorm']
          · have hx2 : x.2 = g := by simpa using hpg
            rw [hx2]
            exact fun hcon => hgr' hcon
        · rw [if_neg hpg]
      | none =>
        show scanCross rest ((normalize_key k, g) :: seen) = true
        refine scanCross_seen_complete rest ((normalize_key k, g) :: seen)
          (nodup_fst_cons_of_find?_none hnd hf)
          ⟨q', hq', (normalize_key k, g), List.mem_cons_self _ _, hnorm', ?_⟩
        exact hgr'
    rcases List.mem_cons.mp hp with rfl | hp'
    · rcases List.mem_cons.mp hq with rfl | hq'
      · exact absurd rfl hgr
      · exact step q hq' hnorm hgr
    · rcases List.mem_cons.mp hq with rfl | hq'
      · exact step p hp' hnorm.symm (Ne.symm hgr)
      · cases hf : seen.find? (fun x => x.1 == normalize_key k) with
        | some x =>
          show (if (x.2 == g) = true then scanCross rest seen else true) = true
          by_cases hpg : (x.2 == g) = true
          · rw [if_pos hpg]
            exact scanCross_cross_complete rest seen hnd
              ⟨p, hp', q, hq', hnorm, hgr⟩
          · rw [if_neg hpg]
        | none =>
          show scanCross rest ((normalize_key k, g) :: seen) = true
          exact scanCross_cross_complete rest ((normalize_key k, g) :: seen)
            (nodup_fst_cons_of_find?_none hnd hf)
            ⟨p, hp', q, hq', hnorm, hgr⟩

theorem scanCross_eq_cross (pairs : List (String × String)) :
    scanCross pairs [] = has_cross_group_duplicate pairs := by
  cases hs : scanCross pairs [] with
  | true =>
    rcases scanCross_true_sound pairs [] hs with ⟨_, _, e, he, _⟩ | hc
    · simp at he
    · exact ((has_cross_group_duplicate_iff pairs).mpr hc).symm
  | false =>
    cases hh : has_cross_group_duplicate pairs with
    | true =>
      have hc := (has_cross_group_duplicate_iff pairs).mp hh
      have := scanCross_cross_complete pairs [] (by simp) hc
      rw [hs] at this
      exact absurd this (by simp)
    | false => rfl

/-- C1 (counterexample): a document whose two records `Foo` and `foo` have
equal case-folded keys but sit in the same group loads successfully, so
`load` does not raise on every case-folded duplicate pair. -/
theorem load_same_group_casefold_duplicate_ok :
    load [("tools", [("Foo", ⟨"cask", "a"⟩), ("foo", ⟨"uv", "b"⟩)])] =
      .ok [("tools", [("Foo", ⟨"cask", "a"⟩), ("foo", ⟨"uv", "b"⟩)])] ∧
    normalize_key "Foo" = normalize_key "foo" :=
  ⟨rfl, rfl⟩

/-- C1 (amended): `load` raises the duplicate-key `AppManagerError` exactly
when two records with equal case-folded keys sit in two different groups;
case-folded duplicates confined to a single group load successfully.  `load`
itself never mutates the document it validates. -/
theorem load_duplicate_error_iff_cross_group (document : Document) :
    (∃ e, load document = .error e) ↔ CrossDup (group_key_pairs document) := by
  constructor
  · rintro ⟨e, he⟩
    by_cases hv : validate_no_duplicates_fails document = true
    · refine (has_cross_group_duplicate_iff _).mp ?_
      rw [← scanCross_eq_cross]
      exact hv
    · rw [load, if_neg hv] at he
      exact absurd he (by simp)
  · intro hc
    have hv : validate_no_duplicates_fails document = true := by
      show scanCross (group_key_pairs document) [] = true
      rw [scanCross_eq_cross]
      exact (has_cross_group_duplicate_iff _).mpr hc
    exact ⟨_, by rw [load, if_pos hv]⟩

/-- C1 (witness): on a document with the key `foo` case-folded-duplicated
across `[one]` and `[two]`, `load` raises. -/
theorem load_duplicate_error_witness :
    (∃ e, load [("one", [("foo", ⟨"uv", "a"⟩)]),
      ("two", [("Foo", ⟨"cask", "b"⟩)])] = .error e) ∧
    load [("one", [("foo", ⟨"uv", "a"⟩)]), ("two", [("Foo", ⟨"cask", "b"⟩)])] =
      .error "Duplicate apps found in apps.toml. Each app must be globally unique." :=
  ⟨(load_duplicate_error_iff_cross_group _).mpr
    ⟨("one", "foo"), by decide, ("two", "Foo"), by decide, by decide⟩, rfl⟩

/-! ## C4: uninstall failure surfacing per strategy -/

/-- C4 (counterexample): when `brew uninstall` exits non-zero, the brew-backed
strategies raise `AppManagerError` (via `CommandRunner.run` with
`check=True`) instead of returning a failed `OperationResult`. -/
theorem brew_uninstall_raises_on_failure :
    brew_uninstall "--cask" "foo" ⟨1, "", "boom"⟩ =
      .error "Command failed: brew uninstall --cask foo\nboom" ∧
    uv_uninstall "httpie" ⟨1, "", "bad"⟩ =
      .error "Command failed: uv tool uninstall httpie\nbad" :=
  ⟨rfl, rfl⟩

/-- C4 (amended): on a non-zero uninstall exit code, only the mas strategy
returns a typed failed `OperationResult`; the cask, formula (both via
`BrewSourceService.uninstall`) and uv strategies raise `AppManagerError`. -/
theorem uninstall_failure_surface_by_strategy (listFlag app : String)
    (cp : CompletedProcess) (h : cp.returncode ≠ 0) :
    (∃ m, brew_uninstall listFlag app cp = .error m) ∧
    (∃ m, uv_uninstall app cp = .error m) ∧
    mas_uninstall app cp = .ok (OperationResult.failedR
      ("Failed to uninstall " ++ app ++ ". Please uninstall it manually.")) := by
  have hb : (cp.returncode == 0) = false := by
    simpa using h
  have hrun : ∀ command : List String, runner_run true command cp =
      .error ("Command failed: " ++ String.intercalate " " command ++ "\n" ++
        command_failed_details cp) := by
    intro command
    rw [runner_run]
    simp [hb]
  refine ⟨?_, ?_, ?_⟩
  · rw [brew_uninstall, hrun]
    exact ⟨_, rfl⟩
  · rw [uv_uninstall, hrun]
    exact ⟨_, rfl⟩
  · simp [mas_uninstall, runner_run, hb]

/-- C4 (witness): instantiation of the amended statement at exit code 1. -/
theorem uninstall_failure_surface_witness :
    (1 : Int) ≠ 0 ∧
    ((∃ m, brew_uninstall "--formula" "jq" ⟨1, "", ""⟩ = .error m) ∧
      (∃ m, uv_uninstall "jq" ⟨1, "", ""⟩ = .error m) ∧
      mas_uninstall "jq" ⟨1, "", ""⟩ = .ok (OperationResult.failedR
        "Failed to uninstall jq. Please uninstall it manually.")) :=
  ⟨by decide, uninstall_failure_surface_by_strategy "--formula" "jq"
    ⟨1, "", ""⟩ (by decide)⟩

/-! ## C3: sync error propagation -/

def exSyncRecords : List AppRecord :=
  [⟨"tools", "alpha", "formula", ""⟩, ⟨"tools", "beta", "formula", ""⟩]

/-- A service behaviour where installing `alpha` raises `AppManagerError`
(as `BrewSourceService.install` does when `brew install` exits non-zero) and
installing `beta` succeeds. -/
def exSyncSvc : String → String → Except String OperationResult :=
  fun _ key =>
    if key == "alpha" then
      .error "Command failed: brew install --formula alpha\nboom"
    else .ok (OperationResult.okR "Installed beta.")

/-- C3 (counterexample): `alpha`'s install failure raises out of
`_install_declared`, so `beta` — whose own install would succeed — is never
processed: the pass aborts instead of continuing past the failure. -/
theorem install_declared_aborts_on_raise :
    install_declared ["formula"] exSyncSvc exSyncRecords =
      ([], some "Command failed: brew install --formula alpha\nboom") ∧
    exSyncSvc "formula" "beta" = .ok (OperationResult.okR "Installed beta.") :=
  ⟨rfl, rfl⟩

/-- C3 (amended): the install pass of sync continues past per-item failures
only when they are surfaced as (possibly failed) `OperationResult`s; if no
enabled record's `ensure_installed` raises, every enabled record is processed
and nothing propagates.  A raised `AppManagerError` (e.g. a non-zero
`brew install` exit) aborts the pass, skipping the remaining records. -/
theorem install_declared_continues_on_typed_failures
    (enabled : List String)
    (svc : String → String → Except String OperationResult) :
    ∀ records : List AppRecord,
    (∀ r ∈ records, enabled.contains r.source = true →
      ∃ res, svc r.source r.key = .ok res) →
    (install_declared enabled svc records).2 = none ∧
    (install_declared enabled svc records).1.map Prod.fst =
      (records.filter (fun r => enabled.contains r.source)).map AppRecord.key
  | [], _ => ⟨rfl, rfl⟩
  | r :: rest, h => by
    have hrest := install_declared_continues_on_typed_failures enabled svc rest
      (fun x hx => h x (List.mem_cons_of_mem _ hx))
    by_cases hsrc : enabled.contains r.source = true
    · rcases h r (List.mem_cons_self _ _) hsrc with ⟨res, hres⟩
      have hstep : install_declared enabled svc (r :: rest) =
          ((r.key, res) :: (install_declared enabled svc rest).1,
            (install_declared enabled svc rest).2) := by
        simp only [install_declared, hsrc, if_true, hres]
      rw [hstep,
        @List.filter_cons_of_pos _ (fun x => enabled.contains x.source) r rest hsrc,
        List.map_cons, List.map_cons, hrest.2]
      exact ⟨hrest.1, rfl⟩
    · have hc2 : enabled.contains r.source = false := by
        simpa using hsrc
      have hstep : install_declared enabled svc (r :: rest) =
          install_declared enabled svc rest := by
        show (if enabled.contains r.source then
            match svc r.source r.key with
            | Except.error m => (([] : List (String × OperationResult)), some m)
            | Except.ok res =>
              ((r.key, res) :: (install_declared enabled svc rest).1,
                (install_declared enabled svc rest).2)
          else install_declared enabled svc rest) =
          install_declared enabled svc rest
        rw [hc2, if_neg Bool.false_ne_true]
      rw [hstep,
        @List.filter_cons_of_neg _ (fun x => enabled.contains x.source) r rest hsrc]
      exact hrest

/-- C3 (witness): with `alpha`'s install surfaced as a typed failed result
(not raised), the pass processes both records. -/
theorem install_declared_continues_witness :
    (install_declared ["formula"]
      (fun _ key => if key == "alpha" then
          .ok (OperationResult.failedR "install failed")
        else .ok (OperationResult.okR "Installed."))
      exSyncRecords).2 = none ∧
    (install_declared ["formula"]
      (fun _ key => if key == "alpha" then
          .ok (OperationResult.failedR "install failed")
        else .ok (OperationResult.okR "Installed."))
      exSyncRecords).1.map Prod.fst =
      (exSyncRecords.filter
        (fun r => (["formula"] : List String).contains r.source)).map
        AppRecord.key :=
  install_declared_continues_on_typed_failures ["formula"] _ exSyncRecords
    (by
      intro r hr _
      by_cases hk : (r.key == "alpha") = true
      · exact ⟨OperationResult.failedR "install failed", by simp [hk]⟩
      · exact ⟨OperationResult.okR "Installed.", by simp [hk]⟩)

/-! ## C9: one upgrade per provider -/

theorem upgrade_go_spec :
    ∀ (l seen : List String), (∀ s ∈ l, s ∈ registered_sources) →
    ∃ calls, upgrade_go l seen = .ok calls ∧ calls.Nodup ∧
      ∀ k, k ∈ calls ↔ (k ∉ seen ∧ ∃ s ∈ l, maintenance_key s = k)
  | [], seen, _ => ⟨[], rfl, List.nodup_nil, by simp⟩
  | s :: rest, seen, h => by
    have hs : s ∈ registered_sources := h s (List.mem_cons_self _ _)
    have hkey : get_service_key s = .ok (maintenance_key s) := by
      rw [get_service_key, if_pos (by simpa using hs)]
    by_cases hseen : seen.contains (maintenance_key s) = true
    · rcases upgrade_go_spec rest seen
        (fun x hx => h x (List.mem_cons_of_mem _ hx)) with ⟨calls, hgo, hnd, hmem⟩
      refine ⟨calls, ?_, hnd, ?_⟩
      · simp only [upgrade_go, hkey, hseen, if_true]
        exact hgo
      · intro k
        rw [hmem k]
        constructor
        · rintro ⟨hk1, x, hx, hk2⟩
          exact ⟨hk1, x, List.mem_cons_of_mem _ hx, hk2⟩
        · rintro ⟨hk1, x, hx, hk2⟩
          rcases List.mem_cons.mp hx with rfl | hx'
          · exact absurd (hk2 ▸ (show maintenance_key x ∈ seen by
              simpa using hseen)) hk1
          · exact ⟨hk1, x, hx', hk2⟩
    · have hc : seen.contains (maintenance_key s) = false := by
        simpa using hseen
      rcases upgrade_go_spec rest (maintenance_key s :: seen)
        (fun x hx => h x (List.mem_cons_of_mem _ hx)) with ⟨calls, hgo, hnd, hmem⟩
      refine ⟨maintenance_key s :: calls, ?_, ?_, ?_⟩
      · show (match get_service_key s with
            | Except.error e => (Except.error e : Except String (List String))
            | Except.ok key =>
              if seen.contains key then upgrade_go rest seen
              else
                match upgrade_go rest (key :: seen) with
                | Except.error e => Except.error e
                | Except.ok more => Except.ok (key :: more)) =
            Except.ok (maintenance_key s :: calls)
        rw [hkey]
        show (if seen.contains (maintenance_key s) then upgrade_go rest seen
            else
              match upgrade_go rest (maintenance_key s :: seen) with
              | Except.error e => (Except.error e : Except String (List String))
              | Except.ok more => Except.ok (maintenance_key s :: more)) =
            Except.ok (maintenance_key s :: calls)
        rw [hc, if_neg Bool.false_ne_true, hgo]
      · refine List.nodup_cons.mpr ⟨?_, hnd⟩
        intro hin
        exact ((hmem _).mp hin).1 (List.mem_cons_self _ _)
      · intro k
        constructor
        · intro hk
          rcases List.mem_cons.mp hk with rfl | hk'
          · refine ⟨fun hcon => hseen (by simpa using hcon),
              s, List.mem_cons_self _ _, rfl⟩
          · rcases (hmem k).mp hk' with ⟨hk1, x, hx, hk2⟩
            exact ⟨fun hcon => hk1 (List.mem_cons_of_mem _ hcon),
              x, List.mem_cons_of_mem _ hx, hk2⟩
        · rintro ⟨hk1, x, hx, hk2⟩
          rcases List.mem_cons.mp hx with rfl | hx'
          · rw [← hk2]
            exact List.mem_cons_self _ _
          · by_cases hkk : k = maintenance_key s
            · rw [hkk]
              exact List.mem_cons_self _ _
            · refine List.mem_cons_of_mem _ ((hmem k).mpr ⟨?_, x, hx', hk2⟩)
              intro hcon
              rcases List.mem_cons.mp hcon with h1 | h2
              · exact hkk h1
              · exact hk1 h2

/-- C9: per sync, `upgrade_all` runs exactly once per distinct maintenance
key (provider) among the enabled sources: the sequence of providers upgraded
is duplicate-free and contains precisely the maintenance keys of the enabled
sources.  In particular `cask` and `formula`, sharing the `brew` provider,
yield a single brew upgrade. -/
theorem upgrade_once_per_provider (enabled : List String)
    (h : ∀ s ∈ enabled, s ∈ registered_sources) :
    ∃ calls, upgrade_sources enabled = .ok calls ∧ calls.Nodup ∧
      ∀ k, k ∈ calls ↔ ∃ s ∈ enabled, maintenance_key s = k := by
  have hperm : (sorted_strings enabled.dedup).Perm enabled.dedup :=
    List.perm_insertionSort _ _
  have hmem : ∀ s, s ∈ sorted_strings enabled.dedup ↔ s ∈ enabled := by
    intro s
    rw [hperm.mem_iff, List.mem_dedup]
  rcases upgrade_go_spec (sorted_strings enabled.dedup) []
    (fun x hx => h x ((hmem x).mp hx)) with ⟨calls, hgo, hnd, hiff⟩
  refine ⟨calls, hgo, hnd, ?_⟩
  intro k
  rw [hiff k]
  constructor
  · rintro ⟨_, x, hx, hk⟩
    exact ⟨x, (hmem x).mp hx, hk⟩
  · rintro ⟨x, hx, hk⟩
    exact ⟨by simp, x, (hmem x).mpr hx, hk⟩

/-- C9 (witness): with all four sources enabled, exactly the three providers
`brew`, `mas`, `uv` are upgraded, `brew` once despite backing both `cask`
and `formula`. -/
theorem upgrade_once_per_provider_witness :
    upgrade_sources registered_sources = .ok ["brew", "mas", "uv"] ∧
    ∃ calls, upgrade_sources registered_sources = .ok calls ∧ calls.Nodup ∧
      ∀ k, k ∈ calls ↔ ∃ s ∈ registered_sources, maintenance_key s = k :=
  ⟨rfl, upgrade_once_per_provider registered_sources (by decide)⟩

/-! ## Branch characterizations of `add_or_update` -/

theorem add_or_update_char_new (document : Document)
    (app source group description T : String)
    (hres : resolve_group_name document group = .ok T)
    (hfind : find_app document app = none) :
    add_or_update document app source group description = .ok
      (⟨app, T, description,
        (upsert_value (tableFor (ensure_group document T) T) app
          (mkItem source description)).2, none, none⟩,
       set_key (ensure_group document T) T
         (upsert_value (tableFor (ensure_group document T) T) app
           (mkItem source description)).1) := by
  simp only [add_or_update, hres, hfind]

theorem add_or_update_char_same (document : Document)
    (app source group description T : String) (r : AppRecord)
    (hres : resolve_group_name document group = .ok T)
    (hfind : find_app document app = some r)
    (hgr : r.group = T) :
    add_or_update document app source group description = .ok
      (⟨r.key, T, description,
        (upsert_value (tableFor (ensure_group document T) T) r.key
          (mkItem source description)).2, none, some r.source⟩,
       set_key (ensure_group document T) T
         (upsert_value (tableFor (ensure_group document T) T) r.key
           (mkItem source description)).1) := by
  simp only [add_or_update, hres, hfind]
  rw [if_pos (show (r.group == T) = true by simpa using hgr)]

theorem add_or_update_char_moved (document : Document)
    (app source group description T : String) (r : AppRecord)
    (hres : resolve_group_name document group = .ok T)
    (hfind : find_app document app = some r)
    (hgr : r.group ≠ T)
    (hrem : (remove_app_from_group document r.group r.key).2 = true) :
    add_or_update document app source group description = .ok
      (⟨r.key, T, description,
        (upsert_value
          (tableFor
            (ensure_group (remove_app_from_group document r.group r.key).1 T) T)
          r.key (mkItem source description)).2, some r.group, some r.source⟩,
       set_key
         (ensure_group (remove_app_from_group document r.group r.key).1 T) T
         (upsert_value
           (tableFor
             (ensure_group (remove_app_from_group document r.group r.key).1 T) T)
           r.key (mkItem source description)).1) := by
  simp only [add_or_update, hres, hfind]
  rw [if_neg (show ¬ (r.group == T) = true by simpa using hgr), if_pos hrem]

theorem add_or_update_char_moved_fail (document : Document)
    (app source group description T : String) (r : AppRecord)
    (hres : resolve_group_name document group = .ok T)
    (hfind : find_app document app = some r)
    (hgr : r.group ≠ T)
    (hrem : (remove_app_from_group document r.group r.key).2 = false) :
    add_or_update document app source group description =
      .error "App was detected in its group but could not be removed." := by
  simp only [add_or_update, hres, hfind]
  rw [if_neg (show ¬ (r.group == T) = true by simpa using hgr),
    if_neg (show ¬ (remove_app_from_group document r.group r.key).2 = true by
      simp [hrem])]

/-! ## C5: previous_source reporting -/

/-- C5 (counterexample): re-adding `foo` with its existing source `uv`
unchanged still yields `previous_source = some "uv"` (non-empty) and
`source_changed = true`, although the source did not change. -/
theorem previous_source_set_without_change :
    add_or_update [("dev", [("foo", ⟨"uv", "d"⟩)])] "foo" "uv" "dev" "d" =
      .ok (⟨"foo", "dev", "d", true, none, some "uv"⟩,
        [("dev", [("foo", ⟨"uv", "d"⟩)])]) ∧
    (⟨"foo", "dev", "d", true, none, some "uv"⟩ : AddAppOutcome).source_changed
      = true :=
  ⟨rfl, rfl⟩

/-- C5 (amended): `add_or_update` records the existing record's source as
`previous_source` whenever the key already existed anywhere in the document,
regardless of whether the source changed; `source_changed` is therefore true
exactly when a record existed with a non-empty source.  Detecting an actual
source change is left to the caller (`add_app` compares it with the new
source). -/
theorem previous_source_records_existing (document : Document)
    (app source group description : String) (o : AddAppOutcome) (d' : Document)
    (h : add_or_update document app source group description = .ok (o, d')) :
    o.previous_source = (find_app document app).map AppRecord.source ∧
    (o.source_changed = true ↔
      ∃ r, find_app document app = some r ∧ r.source ≠ "") := by
  have hps : o.previous_source = (find_app document app).map AppRecord.source := by
    cases hres : resolve_group_name document group with
    | error e =>
      rw [add_or_update.eq_def, hres] at h
      exact Except.noConfusion h
    | ok T =>
      cases hfind : find_app document app with
      | none =>
        rw [add_or_update_char_new document app source group description T
          hres hfind] at h
        have h2 := Except.ok.inj h
        have hfst : _ = o := congrArg Prod.fst h2
        rw [← hfst]
        rfl
      | some r =>
        by_cases hgr : r.group = T
        · rw [add_or_update_char_same document app source group description T r
            hres hfind hgr] at h
          have h2 := Except.ok.inj h
          have hfst : _ = o := congrArg Prod.fst h2
          rw [← hfst]
          rfl
        · cases hrem : (remove_app_from_group document r.group r.key).2 with
          | true =>
            rw [add_or_update_char_moved document app source group description
              T r hres hfind hgr hrem] at h
            have h2 := Except.ok.inj h
            have hfst : _ = o := congrArg Prod.fst h2
            rw [← hfst]
            rfl
          | false =>
            rw [add_or_update_char_moved_fail document app source group
              description T r hres hfind hgr hrem] at h
            exact Except.noConfusion h
  refine ⟨hps, ?_⟩
  cases hfind : find_app document app with
  | none =>
    rw [hfind] at hps
    have hps' : o.previous_source = none := by simpa using hps
    rw [AddAppOutcome.source_changed.eq_def, hps']
    simp
  | some r =>
    rw [hfind] at hps
    have hps' : o.previous_source = some r.source := by simpa using hps
    rw [AddAppOutcome.source_changed.eq_def, hps']
    constructor
    · intro hne
      refine ⟨r, rfl, ?_⟩
      simpa using hne
    · rintro ⟨r', hr', hne⟩
      have hr2 : r = r' := Option.some.inj hr'
      rw [← hr2] at hne
      simpa using hne

/-- C5 (witness): instantiation at a document where `foo` exists with source
`formula` and is re-added with source `cask`: `previous_source` reports
`formula`. -/
theorem previous_source_records_existing_witness :
    (⟨"foo", "dev", "x", true, none, some "formula"⟩
        : AddAppOutcome).previous_source =
      (find_app [("dev", [("foo", ⟨"formula", "d"⟩)])] "foo").map
        AppRecord.source ∧
    ((⟨"foo", "dev", "x", true, none, some "formula"⟩
        : AddAppOutcome).source_changed = true ↔
      ∃ r, find_app [("dev", [("foo", ⟨"formula", "d"⟩)])] "foo" = some r ∧
        r.source ≠ "") :=
  previous_source_records_existing [("dev", [("foo", ⟨"formula", "d"⟩)])]
    "foo" "cask" "dev" "x" ⟨"foo", "dev", "x", true, none, some "formula"⟩
    [("dev", [("foo", ⟨"cask", "x"⟩)])] rfl

/-! ## C7: idempotent ensure wrappers -/

theorem is_installed_iff (s : Strategy) (app : String) :
    is_installed s app = true ↔
      ∃ a ∈ s.managed_aliases app, ∃ t ∈ listingTokens s,
        normalize_key a = normalize_key t := by
  rw [is_installed, List.any_eq_true]
  constructor
  · rintro ⟨na, hna, hcon⟩
    rcases List.mem_map.mp hna with ⟨a, ha, rfl⟩
    have hmem : normalize_key a ∈ (listingTokens s).map normalize_key := by
      simpa using hcon
    rcases List.mem_map.mp hmem with ⟨t, ht, heq⟩
    exact ⟨a, ha, t, ht, heq.symm⟩
  · rintro ⟨a, ha, t, ht, heq⟩
    refine ⟨normalize_key a, List.mem_map.mpr ⟨a, ha, rfl⟩, ?_⟩
    have hmem : normalize_key a ∈ (listingTokens s).map normalize_key :=
      List.mem_map.mpr ⟨t, ht, heq.symm⟩
    simpa using hmem

/-- C7: when the strategy's installed listing contains some casefolded alias
of the app, `ensure_installed` returns a skipped success and never invokes
`install`; dually, when no alias occurs in the listing,
`ensure_uninstalled` returns a skipped success and never invokes
`uninstall`. -/
theorem ensure_operations_skip_when_converged (s : Strategy) (app : String) :
    ((∃ a ∈ s.managed_aliases app, ∃ t ∈ listingTokens s,
        normalize_key a = normalize_key t) →
      (∃ r, (ensure_installed s app).1 = .ok r ∧ r.skipped = true ∧
        r.success = true) ∧ (ensure_installed s app).2 = false) ∧
    ((∀ a ∈ s.managed_aliases app, ∀ t ∈ listingTokens s,
        normalize_key a ≠ normalize_key t) →
      (∃ r, (ensure_uninstalled s app).1 = .ok r ∧ r.skipped = true ∧
        r.success = true) ∧ (ensure_uninstalled s app).2 = false) := by
  constructor
  · intro hex
    have hinst : is_installed s app = true := (is_installed_iff s app).mpr hex
    have hstep : ensure_installed s app =
        (.ok (OperationResult.skippedR
          (app ++ " is already installed via " ++ s.source_name ++ ".")),
          false) := by
      rw [ensure_installed.eq_def, hinst]
      rfl
    rw [hstep]
    exact ⟨⟨_, rfl, rfl, rfl⟩, rfl⟩
  · intro hne
    have hninst : is_installed s app = false := by
      refine Bool.eq_false_iff.mpr ?_
      intro hcon
      rcases (is_installed_iff s app).mp hcon with ⟨a, ha, t, ht, heq⟩
      exact hne a ha t ht heq
    have hstep : ensure_uninstalled s app =
        (.ok (OperationResult.skippedR
          (app ++ " is not installed; skipping uninstall.")), false) := by
      rw [ensure_uninstalled.eq_def, hninst]
      rfl
    rw [hstep]
    exact ⟨⟨_, rfl, rfl, rfl⟩, rfl⟩

/-- Strategy stub for the C7 witness: reports exactly `foo` (displayed as
`Foo App`) installed. -/
def exStrategy : Strategy :=
  ⟨"uv", fun a => [a], [("foo", "Foo App")], fun _ => none,
    fun _ => .ok (), fun _ => .ok (OperationResult.okR "")⟩

/-- C7 (witness): for the stub, `ensure_installed "Foo"` skips without
installing, and `ensure_uninstalled "bar"` skips without uninstalling. -/
theorem ensure_operations_skip_witness :
    ((∃ r, (ensure_installed exStrategy "Foo").1 = .ok r ∧ r.skipped = true ∧
      r.success = true) ∧ (ensure_installed exStrategy "Foo").2 = false) ∧
    ((∃ r, (ensure_uninstalled exStrategy "bar").1 = .ok r ∧ r.skipped = true ∧
      r.success = true) ∧ (ensure_uninstalled exStrategy "bar").2 = false) :=
  ⟨(ensure_operations_skip_when_converged exStrategy "Foo").1
      ⟨"Foo", by decide, "foo", by decide, by decide⟩,
    (ensure_operations_skip_when_converged exStrategy "bar").2 (by decide)⟩

/-! ## C2: add_app rollback on install failure -/

/-- C2: in an `add` invocation without `--no-install` (on a manifest that
passes duplicate validation), if the install phase returns a failure message
— a raised `AppManagerError` or a failed result from the previous source's
`ensure_uninstalled` or the new source's `ensure_installed` — then `add_app`
raises with exactly that message, `AppsRepository.save` is never called, and
the on-disk manifest is unchanged; and conversely, whenever `save` runs, the
install phase returned no failure and the mutated document is what gets
persisted. -/
theorem add_app_install_failure_preserves_disk
    (disk : Document) (app source group description : String)
    (svc : SvcBehavior)
    (hload : validate_no_duplicates_fails disk = false) :
    (∀ selectedGroup o d' m,
      resolve_group_name disk group = .ok selectedGroup →
      add_or_update disk app source selectedGroup description = .ok (o, d') →
      install_phase svc o.previous_source source o.app_key = some m →
      add_app disk app source group description false svc =
        ⟨.error m, disk, 0⟩) ∧
    ((add_app disk app source group description false svc).save_calls ≠ 0 →
      ∃ selectedGroup o d',
        resolve_group_name disk group = .ok selectedGroup ∧
        add_or_update disk app source selectedGroup description = .ok (o, d') ∧
        install_phase svc o.previous_source source o.app_key = none ∧
        add_app disk app source group description false svc =
          ⟨.ok (), d', 1⟩) := by
  constructor
  · intro sg o d' m hres hadd hph
    simp only [add_app, hload, Bool.false_eq_true, if_false, hres, hadd, hph]
  · intro hsave
    cases hres : resolve_group_name disk group with
    | error e =>
      exfalso
      apply hsave
      simp only [add_app, hload, Bool.false_eq_true, if_false, hres]
    | ok sg =>
      cases hadd : add_or_update disk app source sg description with
      | error e =>
        exfalso
        apply hsave
        simp only [add_app, hload, Bool.false_eq_true, if_false, hres, hadd]
      | ok od =>
        cases hph : install_phase svc od.1.previous_source source od.1.app_key
          with
        | some m =>
          exfalso
          apply hsave
          simp only [add_app, hload, Bool.false_eq_true, if_false, hres, hadd,
            hph]
        | none =>
          refine ⟨sg, od.1, od.2, rfl, hadd, hph, ?_⟩
          simp only [add_app, hload, Bool.false_eq_true, if_false, hres, hadd,
            hph]

/-- C2 (witness): a failing `ensure_installed` (raising `AppManagerError`
`boom`) makes `add_app` raise `boom`, leave the on-disk manifest unchanged
and never call save. -/
theorem add_app_install_failure_witness :
    add_app [("dev", [("foo", ⟨"uv", "d"⟩)])] "bar" "uv" "dev" "d" false
      ⟨fun _ _ => .ok (OperationResult.okR ""), fun _ _ => .error "boom"⟩ =
      ⟨.error "boom", [("dev", [("foo", ⟨"uv", "d"⟩)])], 0⟩ :=
  (add_app_install_failure_preserves_disk [("dev", [("foo", ⟨"uv", "d"⟩)])]
    "bar" "uv" "dev" "d"
    ⟨fun _ _ => .ok (OperationResult.okR ""), fun _ _ => .error "boom"⟩
    rfl).1 "dev" ⟨"bar", "dev", "d", false, none, none⟩
    [("dev", [("bar", ⟨"uv", "d"⟩), ("foo", ⟨"uv", "d"⟩)])] "boom" rfl rfl rfl

/-! ## Manifest invariants -/

/-- The normalized keys of a table, in order. -/
def table_norms (t : Table) : List String :=
  t.map (fun p => normalize_key p.1)

/-- The normalized keys of the whole document, in order. -/
def all_norms (d : Document) : List String :=
  d.flatMap (fun gt => table_norms gt.2)

/-- The group (section) names, in document order. -/
def group_names (d : Document) : List String := d.map Prod.fst

/-- Well-formedness guaranteed by TOML parsing: section names are exactly
distinct (tomlkit rejects duplicate table headers). -/
def WFDoc (d : Document) : Prop := (group_names d).Nodup

/-- The global uniqueness invariant: no case-folded key occurs twice. -/
def NormNodup (d : Document) : Prop := (all_norms d).Nodup

/-- A table sorted by case-insensitive key, as `sorted_table` produces. -/
def TableSorted (t : Table) : Prop := List.Sorted tableLE t

/-- Every group's table is sorted by case-insensitive key. -/
def DocSorted (d : Document) : Prop := ∀ gt ∈ d, TableSorted gt.2

theorem all_norms_append (d1 d2 : Document) :
    all_norms (d1 ++ d2) = all_norms d1 ++ all_norms d2 :=
  List.flatMap_append _ _ _

theorem all_norms_cons (gt : String × Table) (d : Document) :
    all_norms (gt :: d) = table_norms gt.2 ++ all_norms d := by
  rw [all_norms, List.flatMap_cons]
  rfl

theorem table_norms_append (t1 t2 : Table) :
    table_norms (t1 ++ t2) = table_norms t1 ++ table_norms t2 :=
  List.map_append _ _ _

theorem table_norms_perm {t1 t2 : Table} (h : t1.Perm t2) :
    (table_norms t1).Perm (table_norms t2) :=
  h.map _

theorem group_names_append (d1 d2 : Document) :
    group_names (d1 ++ d2) = group_names d1 ++ group_names d2 :=
  List.map_append _ _ _

/-! ### find_app characterizations -/

theorem findInTable_eq_none_iff (g : String) (app : String) :
    ∀ t : Table, findInTable g t app = none ↔
      ∀ p ∈ t, normalize_key p.1 ≠ normalize_key app
  | [] => by simp [findInTable]
  | (k, it) :: rest => by
    by_cases hk : (normalize_key k == normalize_key app) = true
    · simp only [findInTable, hk, if_true]
      constructor
      · intro h
        exact absurd h (by simp)
      · intro h
        exact absurd (by simpa using hk) (h (k, it) (List.mem_cons_self _ _))
    · have hstep : findInTable g ((k, it) :: rest) app = findInTable g rest app := by
        show (if (normalize_key k == normalize_key app) = true
            then some ⟨g, k, get_item_value it, get_item_comment it⟩
            else findInTable g rest app) = findInTable g rest app
        rw [if_neg hk]
      rw [hstep, findInTable_eq_none_iff g app rest]
      constructor
      · intro h p hp
        rcases List.mem_cons.mp hp with rfl | hp'
        · simpa using hk
        · exact h p hp'
      · intro h p hp
        exact h p (List.mem_cons_of_mem _ hp)

theorem findInTable_eq_some (g app : String) (r : AppRecord) :
    ∀ t : Table, findInTable g t app = some r →
    r.group = g ∧ ∃ t1 it t2, t = t1 ++ (r.key, it) :: t2 ∧
      (∀ p ∈ t1, normalize_key p.1 ≠ normalize_key app) ∧
      normalize_key r.key = normalize_key app ∧
      it.value = r.source ∧ pystrip it.comment = r.description
  | [], h => by simp [findInTable] at h
  | (k, it) :: rest, h => by
    by_cases hk : (normalize_key k == normalize_key app) = true
    · rw [findInTable, if_pos hk] at h
      have hr := (Option.some.inj h).symm
      refine ⟨by rw [hr], [], it, rest, ?_, by simp, ?_, ?_, ?_⟩ <;>
        simp [hr, get_item_value, get_item_comment, by simpa using hk]
    · rw [findInTable, if_neg hk] at h
      rcases findInTable_eq_some g app r rest h with
        ⟨hg, t1, it', t2, hsplit, ht1, hnorm, hval, hcom⟩
      refine ⟨hg, (k, it) :: t1, it', t2, by rw [hsplit]; simp, ?_, hnorm, hval,
        hcom⟩
      intro p hp
      rcases List.mem_cons.mp hp with rfl | hp'
      · simpa using hk
      · exact ht1 p hp'

theorem findInTable_first_match (g app k : String) (it : Item) :
    ∀ t1 : Table, (∀ p ∈ t1, normalize_key p.1 ≠ normalize_key app) →
    normalize_key k = normalize_key app →
    ∀ t2, findInTable g (t1 ++ (k, it) :: t2) app =
      some ⟨g, k, it.value, pystrip it.comment⟩
  | [], _, hk, t2 => by
    rw [List.nil_append, findInTable, if_pos (by simpa using hk)]
    rfl
  | (k', it') :: rest, h, hk, t2 => by
    rw [List.cons_append, findInTable,
      if_neg (by simpa using h (k', it') (List.mem_cons_self _ _))]
    exact findInTable_first_match g app k it rest
      (fun p hp => h p (List.mem_cons_of_mem _ hp)) hk t2

theorem find_app_eq_none_iff (app : String) :
    ∀ d : Document, find_app d app = none ↔
      ∀ gt ∈ d, ∀ p ∈ gt.2, normalize_key p.1 ≠ normalize_key app
  | [] => by simp [find_app]
  | (g, t) :: rest => by
    rw [find_app]
    cases hft : findInTable g t app with
    | some r =>
      constructor
      · intro h
        exact absurd h (by simp)
      · intro h
        rcases findInTable_eq_some g app r t hft with
          ⟨_, t1, it, t2, hsplit, _, hnorm, _, _⟩
        exact absurd hnorm
          (h (g, t) (List.mem_cons_self _ _) (r.key, it)
            (by rw [hsplit]; exact List.mem_append_right _ (List.mem_cons_self _ _)))
    | none =>
      rw [find_app_eq_none_iff app rest]
      constructor
      · intro h gt hgt p hp
        rcases List.mem_cons.mp hgt with rfl | hgt'
        · exact ((findInTable_eq_none_iff g app t).mp hft) p hp
        · exact h gt hgt' p hp
      · intro h gt hgt p hp
        exact h gt (List.mem_cons_of_mem _ hgt) p hp

theorem find_app_eq_some_split (app : String) (r : AppRecord) :
    ∀ d : Document, find_app d app = some r →
    ∃ pre t post, d = pre ++ (r.group, t) :: post ∧
      (∀ gt ∈ pre, ∀ p ∈ gt.2, normalize_key p.1 ≠ normalize_key app) ∧
      ∃ t1 it t2, t = t1 ++ (r.key, it) :: t2 ∧
        (∀ p ∈ t1, normalize_key p.1 ≠ normalize_key app) ∧
        normalize_key r.key = normalize_key app ∧
        it.value = r.source ∧ pystrip it.comment = r.description
  | [], h => by simp [find_app] at h
  | (g, t) :: rest, h => by
    rw [find_app] at h
    cases hft : findInTable g t app with
    | some r' =>
      rw [hft] at h
      have hr : r' = r := Option.some.inj h
      subst hr
      rcases findInTable_eq_some g app r' t hft with ⟨hg, hrest⟩
      exact ⟨[], t, rest, by rw [hg]; simp, by simp, hrest⟩
    | none =>
      rw [hft] at h
      rcases find_app_eq_some_split app r rest h with
        ⟨pre, t', post, hd, hpre, hrest⟩
      refine ⟨(g, t) :: pre, t', post, by rw [hd]; simp, ?_, hrest⟩
      intro gt hgt p hp
      rcases List.mem_cons.mp hgt with rfl | hgt'
      · exact ((findInTable_eq_none_iff g app t).mp hft) p hp
      · exact hpre gt hgt' p hp

theorem find_app_complete (app : String) (G k : String) (it : Item)
    (t1 t2 : Table) :
    ∀ pre post : Document,
    NormNodup (pre ++ (G, t1 ++ (k, it) :: t2) :: post) →
    normalize_key k = normalize_key app →
    find_app (pre ++ (G, t1 ++ (k, it) :: t2) :: post) app =
      some ⟨G, k, it.value, pystrip it.comment⟩
  | [], post, hnn, hk => by
    rw [List.nil_append, find_app,
      findInTable_first_match G app k it t1 ?ht1 hk t2]
    case ht1 =>
      intro p hp hcon
      have hnn' : (all_norms ((G, t1 ++ (k, it) :: t2) :: post)).Nodup := hnn
      rw [all_norms_cons] at hnn'
      have h1 := (List.nodup_append.mp hnn').1
      rw [table_norms_append] at h1
      have hdisj := (List.nodup_append.mp h1).2.2
      have h2 : normalize_key k ∈ table_norms t1 := by
        rw [hk, ← hcon]
        exact List.mem_map.mpr ⟨p, hp, rfl⟩
      have h3 : normalize_key k ∈ table_norms ((k, it) :: t2) :=
        List.mem_cons_self _ _
      exact hdisj h2 h3
  | (g0, t0) :: pre, post, hnn, hk => by
    rw [List.cons_append, find_app]
    have hnn' : (all_norms
        ((g0, t0) :: (pre ++ (G, t1 ++ (k, it) :: t2) :: post))).Nodup := hnn
    rw [all_norms_cons] at hnn'
    have hdisj := (List.nodup_append.mp hnn').2.2
    have hnone : findInTable g0 t0 app = none := by
      rw [findInTable_eq_none_iff]
      intro p hp hcon
      have h2 : normalize_key app ∈ table_norms t0 := by
        rw [← hcon]
        exact List.mem_map.mpr ⟨p, hp, rfl⟩
      have h3 : normalize_key app ∈
          all_norms (pre ++ (G, t1 ++ (k, it) :: t2) :: post) := by
        rw [all_norms_append, all_norms_cons, table_norms_append]
        refine List.mem_append_right _ (List.mem_append_left _
          (List.mem_append_right _ ?_))
        rw [← hk]
        exact List.mem_cons_self _ _
      exact hdisj h2 h3
    rw [hnone]
    exact find_app_complete app G k it t1 t2 pre post
      ((List.nodup_append.mp hnn').2.1) hk

/-! ### Document surgery lemmas -/

theorem map_set_id (G : String) (t' : Table) :
    ∀ l : Document, (∀ gt ∈ l, gt.1 ≠ G) →
    l.map (fun gt => if gt.1 == G then (G, t') else gt) = l
  | [], _ => rfl
  | gt :: rest, h => by
    rw [List.map_cons,
      if_neg (by simpa using h gt (List.mem_cons_self _ _)),
      map_set_id G t' rest (fun x hx => h x (List.mem_cons_of_mem _ hx))]

theorem find?_group_split (G : String) (t : Table) (pre post : Document)
    (hpre : ∀ gt ∈ pre, gt.1 ≠ G) :
    (pre ++ (G, t) :: post).find? (fun gt => gt.1 == G) = some (G, t) := by
  rw [List.find?_append, List.find?_eq_none.mpr ?hp, Option.none_or,
    List.find?_cons_of_pos]
  case hp =>
    intro gt hm
    simpa using hpre gt hm
  · simp

theorem set_key_split (G : String) (t t' : Table) (pre post : Document)
    (hpre : ∀ gt ∈ pre, gt.1 ≠ G) (hpost : ∀ gt ∈ post, gt.1 ≠ G) :
    set_key (pre ++ (G, t) :: post) G t' = pre ++ (G, t') :: post := by
  have hany : ((pre ++ (G, t) :: post).any (fun gt => gt.1 == G)) = true :=
    List.any_eq_true.mpr ⟨(G, t),
      List.mem_append_right _ (List.mem_cons_self _ _), by simp⟩
  unfold set_key
  rw [if_pos hany, List.map_append, List.map_cons,
    map_set_id G t' pre hpre, map_set_id G t' post hpost]
  simp

theorem set_key_absent (G : String) (t : Table) (d : Document)
    (h : ∀ gt ∈ d, gt.1 ≠ G) : set_key d G t = d ++ [(G, t)] := by
  have hn : ¬ (d.any (fun gt => gt.1 == G)) = true := by
    intro hcon
    rcases List.any_eq_true.mp hcon with ⟨gt, hmem, hbeq⟩
    exact h gt hmem (by simpa using hbeq)
  unfold set_key
  rw [if_neg hn]

theorem ensure_group_present (d : Document) (G : String)
    (h : ∃ gt ∈ d, gt.1 = G) : ensure_group d G = d := by
  rcases h with ⟨gt, hmem, hg⟩
  unfold ensure_group
  rw [if_pos (List.any_eq_true.mpr ⟨gt, hmem, by simp [hg]⟩)]

theorem ensure_group_absent (d : Document) (G : String)
    (h : ∀ gt ∈ d, gt.1 ≠ G) : ensure_group d G = d ++ [(G, [])] := by
  have hn : ¬ (d.any (fun gt => gt.1 == G)) = true := by
    intro hcon
    rcases List.any_eq_true.mp hcon with ⟨gt, hmem, hbeq⟩
    exact h gt hmem (by simpa using hbeq)
  unfold ensure_group
  rw [if_neg hn]
  exact set_key_absent G [] d h

theorem tableFor_split (G : String) (t : Table) (pre post : Document)
    (hpre : ∀ gt ∈ pre, gt.1 ≠ G) :
    tableFor (pre ++ (G, t) :: post) G = t := by
  unfold tableFor
  rw [find?_group_split G t pre post hpre]
  rfl

theorem upsertItems_absent (k : String) (v : Item) :
    ∀ t : Table, (∀ p ∈ t, p.1 ≠ k) →
    upsertItems t k v = (t ++ [(k, v)], false)
  | [], _ => rfl
  | p :: rest, h => by
    have hne : ¬ (p.1 == k) = true := by
      simpa using h p (List.mem_cons_self _ _)
    show (if (p.1 == k) = true then ((k, v) :: rest, true)
        else (p :: (upsertItems rest k v).1, (upsertItems rest k v).2)) =
      ((p :: rest) ++ [(k, v)], false)
    rw [if_neg hne, upsertItems_absent k v rest
      (fun q hq => h q (List.mem_cons_of_mem _ hq))]
    simp

theorem upsertItems_present (k : String) (v w : Item) (t2 : Table) :
    ∀ t1 : Table, (∀ p ∈ t1, p.1 ≠ k) →
    upsertItems (t1 ++ (k, w) :: t2) k v = (t1 ++ (k, v) :: t2, true)
  | [], _ => by
    rw [List.nil_append]
    show (if ((k, w).1 == k) = true then ((k, v) :: t2, true)
        else ((k, w) :: (upsertItems t2 k v).1, (upsertItems t2 k v).2)) =
      ((k, v) :: t2, true)
    rw [if_pos (by simp)]
  | p :: t1, h => by
    have hne : ¬ (p.1 == k) = true := by
      simpa using h p (List.mem_cons_self _ _)
    rw [List.cons_append]
    show (if (p.1 == k) = true
        then ((k, v) :: (t1 ++ (k, w) :: t2), true)
        else (p :: (upsertItems (t1 ++ (k, w) :: t2) k v).1,
          (upsertItems (t1 ++ (k, w) :: t2) k v).2)) =
      ((p :: t1) ++ (k, v) :: t2, true)
    rw [if_neg hne, upsertItems_present k v w t2 t1
      (fun q hq => h q (List.mem_cons_of_mem _ hq))]
    simp

theorem upsertItems_mem (k : String) (v : Item) :
    ∀ t : Table, (k, v) ∈ (upsertItems t k v).1
  | [] => List.mem_cons_self _ _
  | p :: rest => by
    by_cases hp : (p.1 == k) = true
    · show (k, v) ∈ (if (p.1 == k) = true then ((k, v) :: rest, true)
        else (p :: (upsertItems rest k v).1, (upsertItems rest k v).2)).1
      rw [if_pos hp]
      exact List.mem_cons_self _ _
    · show (k, v) ∈ (if (p.1 == k) = true then ((k, v) :: rest, true)
        else (p :: (upsertItems rest k v).1, (upsertItems rest k v).2)).1
      rw [if_neg hp]
      exact List.mem_cons_of_mem _ (upsertItems_mem k v rest)

theorem remove_app_from_group_char (G k : String) (t : Table)
    (pre post : Document)
    (hpre : ∀ gt ∈ pre, gt.1 ≠ G) (hpost : ∀ gt ∈ post, gt.1 ≠ G)
    (hk : ∃ p ∈ t, p.1 = k) :
    remove_app_from_group (pre ++ (G, t) :: post) G k =
      (if (t.filter (fun p => !(p.1 == k))).isEmpty then pre ++ post
       else
         pre ++ (G, sorted_table (t.filter (fun p => !(p.1 == k)))) :: post,
       true) := by
  have hall : (t.all (fun p => !(p.1 == k))) = false := by
    rcases hk with ⟨p, hp, hpk⟩
    cases hb : t.all (fun p => !(p.1 == k)) with
    | false => rfl
    | true =>
      have := List.all_eq_true.mp hb p hp
      rw [hpk] at this
      simp at this
  simp only [remove_app_from_group, find?_group_split G t pre post hpre, hall,
    Bool.false_eq_true, if_false]
  by_cases hemp : ((t.filter (fun p => !(p.1 == k))).isEmpty) = true
  · rw [if_pos hemp, if_pos hemp, List.filter_append,
      List.filter_cons_of_neg (by simp),
      List.filter_eq_self.mpr (fun gt hm => by simpa using hpre gt hm),
      List.filter_eq_self.mpr (fun gt hm => by simpa using hpost gt hm)]
  · rw [if_neg hemp, if_neg hemp, List.map_append, List.map_cons,
      map_set_id G _ pre hpre, map_set_id G _ post hpost]
    simp

/-! ### Group-name resolution as a function of the name list -/

/-- The group that `resolve_group_name` picks among existing ones: the last
whose normalization matches (the Python dict comprehension overwrites earlier
entries). -/
def last_match (names : List String) (n : String) : Option String :=
  (names.filter (fun x => normalize_key x == n)).getLast?

theorem names_filter (n : String) :
    ∀ d : Document,
    (d.filter (fun gt => normalize_key gt.1 == n)).map Prod.fst =
      (d.map Prod.fst).filter (fun x => normalize_key x == n)
  | [] => rfl
  | gt :: rest => by
    by_cases hq : (normalize_key gt.1 == n) = true
    · rw [@List.filter_cons_of_pos _ (fun gt => normalize_key gt.1 == n) gt
        rest hq, List.map_cons, List.map_cons,
        @List.filter_cons_of_pos _ (fun x => normalize_key x == n) gt.1
          (rest.map Prod.fst) hq, names_filter n rest]
    · rw [@List.filter_cons_of_neg _ (fun gt => normalize_key gt.1 == n) gt
        rest hq, List.map_cons,
        @List.filter_cons_of_neg _ (fun x => normalize_key x == n) gt.1
          (rest.map Prod.fst) hq, names_filter n rest]

theorem resolve_group_name_eq (d : Document) (g : String)
    (hg : ¬ pystrip g = "") :
    resolve_group_name d g = .ok
      ((last_match (group_names d) (normalize_key (pystrip g))).getD
        (pystrip g)) := by
  have hlm : last_match (group_names d) (normalize_key (pystrip g)) =
      ((d.filter (fun gt => normalize_key gt.1 ==
        normalize_key (pystrip g))).getLast?).map Prod.fst := by
    rw [last_match, group_names, ← names_filter _ d, List.getLast?_map]
  unfold resolve_group_name
  rw [if_neg hg]
  cases hl : (d.filter (fun gt => normalize_key gt.1 ==
      normalize_key (pystrip g))).getLast? with
  | some gt =>
    rw [hlm, hl]
    rfl
  | none =>
    rw [hlm, hl]
    rfl

theorem mem_of_getLast?_some {α : Type} :
    ∀ {l : List α} {a : α}, l.getLast? = some a → a ∈ l
  | [], _, h => by simp at h
  | [x], a, h => by
    have : x = a := by simpa using h
    rw [this]
    exact List.mem_singleton_self _
  | x :: y :: rest, a, h => by
    rw [List.getLast?_cons_cons] at h
    exact List.mem_cons_of_mem _ (mem_of_getLast?_some h)

theorem last_match_norm {names : List String} {n T : String}
    (h : last_match names n = some T) : (normalize_key T == n) = true := by
  have hmem := mem_of_getLast?_some h
  exact (List.mem_filter.mp hmem).2

theorem last_match_append_self (names : List String) (n T : String)
    (hT : (normalize_key T == n) = true) :
    last_match (names ++ [T]) n = some T := by
  rw [last_match, List.filter_append,
    show ([T].filter (fun x => normalize_key x == n)) = [T] from by
      simp [hT]]
  exact List.getLast?_concat _

theorem last_match_remove (n1 n2 : List String) (G n T : String)
    (h : last_match (n1 ++ G :: n2) n = some T) (hne : T ≠ G) :
    last_match (n1 ++ n2) n = some T := by
  rw [last_match, List.filter_append] at h ⊢
  by_cases hG : (normalize_key G == n) = true
  · rw [@List.filter_cons_of_pos _ (fun x => normalize_key x == n) G n2 hG]
      at h
    cases hf2 : (n2.filter (fun x => normalize_key x == n)) with
    | nil =>
      rw [hf2] at h
      rw [List.getLast?_concat] at h
      exact absurd (Option.some.inj h).symm hne
    | cons y ys =>
      rw [List.getLast?_append] at h ⊢
      rw [hf2, List.getLast?_cons_cons] at h
      exact h
  · rw [@List.filter_cons_of_neg _ (fun x => normalize_key x == n) G n2 hG]
      at h
    exact h

/-! ### Splitting and assembling the invariants around one group -/

theorem mem_all_norms {n : String} {d : Document} :
    n ∈ all_norms d ↔ ∃ gt ∈ d, n ∈ table_norms gt.2 := by
  rw [all_norms, List.mem_flatMap]

theorem not_mem_all_norms_of_find_none {d : Document} {app : String}
    (h : find_app d app = none) : normalize_key app ∉ all_norms d := by
  intro hmem
  rcases mem_all_norms.mp hmem with ⟨gt, hgt, hn⟩
  rcases List.mem_map.mp hn with ⟨p, hp, hpn⟩
  exact (find_app_eq_none_iff app d).mp h gt hgt p hp hpn

theorem NormNodup_split {pre post : Document} {G : String} {t : Table}
    (h : NormNodup (pre ++ (G, t) :: post)) :
    (all_norms pre).Nodup ∧ (table_norms t).Nodup ∧ (all_norms post).Nodup ∧
    (all_norms pre).Disjoint (table_norms t) ∧
    (all_norms pre).Disjoint (all_norms post) ∧
    (table_norms t).Disjoint (all_norms post) := by
  have h' : (all_norms pre ++ (table_norms t ++ all_norms post)).Nodup := by
    have h0 : (all_norms (pre ++ (G, t) :: post)).Nodup := h
    rwa [all_norms_append, all_norms_cons] at h0
  rcases List.nodup_append.mp h' with ⟨h1, h2, h3⟩
  rcases List.nodup_append.mp h2 with ⟨h4, h5, h6⟩
  refine ⟨h1, h4, h5, ?_, ?_, h6⟩
  · intro a ha hb
    exact h3 ha (List.mem_append_left _ hb)
  · intro a ha hb
    exact h3 ha (List.mem_append_right _ hb)

theorem NormNodup_assemble {pre post : Document} (G : String) {t : Table}
    (h1 : (all_norms pre).Nodup) (h2 : (table_norms t).Nodup)
    (h3 : (all_norms post).Nodup)
    (h4 : (all_norms pre).Disjoint (table_norms t))
    (h5 : (all_norms pre).Disjoint (all_norms post))
    (h6 : (table_norms t).Disjoint (all_norms post)) :
    NormNodup (pre ++ (G, t) :: post) := by
  show (all_norms (pre ++ (G, t) :: post)).Nodup
  rw [all_norms_append, all_norms_cons]
  refine List.nodup_append.mpr ⟨h1, List.nodup_append.mpr ⟨h2, h3, h6⟩, ?_⟩
  intro a ha hb
  rcases List.mem_append.mp hb with hb1 | hb2
  exacts [h4 ha hb1, h5 ha hb2]

theorem NormNodup_replace {pre post : Document} {G : String} {t : Table}
    (G' : String) {t' : Table}
    (h : NormNodup (pre ++ (G, t) :: post))
    (hperm : (table_norms t').Perm (table_norms t)) :
    NormNodup (pre ++ (G', t') :: post) := by
  rcases NormNodup_split h with ⟨h1, h2, h3, h4, h5, h6⟩
  refine NormNodup_assemble G' h1 (hperm.nodup_iff.mpr h2) h3 ?_ h5 ?_
  · intro a ha hb
    exact h4 ha (hperm.mem_iff.mp hb)
  · intro a ha hb
    exact h6 (hperm.mem_iff.mp ha) hb

theorem NormNodup_insert {pre post : Document} {G : String} {t : Table}
    (G' : String) {t' : Table} {k : String}
    (h : NormNodup (pre ++ (G, t) :: post))
    (hperm : (table_norms t').Perm (normalize_key k :: table_norms t))
    (hfresh : normalize_key k ∉ all_norms (pre ++ (G, t) :: post)) :
    NormNodup (pre ++ (G', t') :: post) := by
  have e1 : all_norms (pre ++ (G', t') :: post) =
      all_norms pre ++ (table_norms t' ++ all_norms post) := by
    rw [all_norms_append, all_norms_cons]
  have e2 : all_norms (pre ++ (G, t) :: post) =
      all_norms pre ++ (table_norms t ++ all_norms post) := by
    rw [all_norms_append, all_norms_cons]
  have hstep : (all_norms pre ++ (table_norms t' ++ all_norms post)).Perm
      (all_norms pre ++
        ((normalize_key k :: table_norms t) ++ all_norms post)) :=
    (hperm.append_right _).append_left _
  have hmid : (all_norms pre ++
      (normalize_key k :: (table_norms t ++ all_norms post))).Perm
      (normalize_key k ::
        (all_norms pre ++ (table_norms t ++ all_norms post))) :=
    List.perm_middle
  have hall : (all_norms (pre ++ (G', t') :: post)).Perm
      (normalize_key k :: all_norms (pre ++ (G, t) :: post)) := by
    rw [e1, e2]
    exact hstep.trans hmid
  exact hall.nodup_iff.mpr (List.nodup_cons.mpr ⟨hfresh, h⟩)

theorem WFDoc_split {pre post : Document} {G : String} {t : Table}
    (h : WFDoc (pre ++ (G, t) :: post)) :
    (∀ gt ∈ pre, gt.1 ≠ G) ∧ (∀ gt ∈ post, gt.1 ≠ G) ∧
    (group_names pre ++ group_names post).Nodup := by
  have h' : (group_names pre ++ G :: group_names post).Nodup := by
    have h0 : (group_names (pre ++ (G, t) :: post)).Nodup := h
    rw [group_names_append] at h0
    exact h0
  rw [List.nodup_middle] at h'
  rcases List.nodup_cons.mp h' with ⟨hG, hnd⟩
  refine ⟨?_, ?_, hnd⟩
  · intro gt hgt hcon
    exact hG (List.mem_append_left _
      (hcon ▸ List.mem_map.mpr ⟨gt, hgt, rfl⟩))
  · intro gt hgt hcon
    exact hG (List.mem_append_right _
      (hcon ▸ List.mem_map.mpr ⟨gt, hgt, rfl⟩))

theorem group_names_set (pre post : Document) (G : String) (t t' : Table) :
    group_names (pre ++ (G, t') :: post) =
      group_names (pre ++ (G, t) :: post) := by
  rw [group_names_append, group_names_append]
  rfl

theorem WFDoc_replace {pre post : Document} {G : String} {t : Table}
    (t' : Table) (h : WFDoc (pre ++ (G, t) :: post)) :
    WFDoc (pre ++ (G, t') :: post) := by
  show (group_names (pre ++ (G, t') :: post)).Nodup
  rw [group_names_set pre post G t t']
  exact h

theorem DocSorted_split {pre post : Document} {G : String} {t : Table}
    (h : DocSorted (pre ++ (G, t) :: post)) :
    DocSorted pre ∧ TableSorted t ∧ DocSorted post :=
  ⟨fun gt hgt => h gt (List.mem_append_left _ hgt),
   h (G, t) (List.mem_append_right _ (List.mem_cons_self _ _)),
   fun gt hgt => h gt (List.mem_append_right _ (List.mem_cons_of_mem _ hgt))⟩

theorem DocSorted_assemble {pre post : Document} (G : String) {t : Table}
    (h1 : DocSorted pre) (h2 : TableSorted t) (h3 : DocSorted post) :
    DocSorted (pre ++ (G, t) :: post) := by
  intro gt hgt
  rcases List.mem_append.mp hgt with hm | hm
  · exact h1 gt hm
  · rcases List.mem_cons.mp hm with rfl | hm'
    · exact h2
    · exact h3 gt hm'

theorem NormNodup_subset {pre post : Document} {G : String} {t : Table}
    (G' : String) {t' : Table}
    (h : NormNodup (pre ++ (G, t) :: post))
    (hnd : (table_norms t').Nodup)
    (hsub : ∀ a ∈ table_norms t', a ∈ table_norms t) :
    NormNodup (pre ++ (G', t') :: post) := by
  rcases NormNodup_split h with ⟨h1, _, h3, h4, h5, h6⟩
  refine NormNodup_assemble G' h1 hnd h3 ?_ h5 ?_
  · intro a ha hb
    exact h4 ha (hsub a hb)
  · intro a ha hb
    exact h6 (hsub a ha) hb

/-! ### Characterizing the target-group insertion -/

theorem ensure_group_char (d1 : Document) (T : String) (hwf : WFDoc d1) :
    ∃ pre t0 post,
      ensure_group d1 T = pre ++ (T, t0) :: post ∧
      (∀ gt ∈ pre, gt.1 ≠ T) ∧ (∀ gt ∈ post, gt.1 ≠ T) ∧
      (d1 = pre ++ (T, t0) :: post ∨ (pre = d1 ∧ t0 = [] ∧ post = [])) := by
  cases hf : d1.find? (fun gt => gt.1 == T) with
  | some gt =>
    rcases List.find?_eq_some.mp hf with ⟨hpred, pre, post, hd, hpre⟩
    have hgt1 : gt.1 = T := by simpa using hpred
    have hgt : gt = (T, gt.2) := by
      rw [← hgt1]
    have hd' : d1 = pre ++ (T, gt.2) :: post := by
      rw [hd, ← hgt]
    have hpre' : ∀ x ∈ pre, x.1 ≠ T := by
      intro x hx hcon
      have := hpre x hx
      simp [hcon] at this
    have hpost' : ∀ x ∈ post, x.1 ≠ T := by
      have hw : WFDoc (pre ++ (T, gt.2) :: post) := hd' ▸ hwf
      exact (WFDoc_split hw).2.1
    refine ⟨pre, gt.2, post, ?_, hpre', hpost', .inl hd'⟩
    rw [ensure_group_present d1 T ⟨gt, ?_, hgt1⟩, hd']
    rw [hd]
    exact List.mem_append_right _ (List.mem_cons_self _ _)
  | none =>
    have habs : ∀ gt ∈ d1, gt.1 ≠ T := by
      intro gt hgt hcon
      have := List.find?_eq_none.mp hf gt hgt
      simp [hcon] at this
    refine ⟨d1, [], [], ?_, habs, by simp, .inr ⟨rfl, rfl, rfl⟩⟩
    rw [ensure_group_absent d1 T habs]

theorem upsert_fresh_char (d1 : Document) (T ck : String) (item : Item)
    (hwf : WFDoc d1)
    (hfresh : normalize_key ck ∉ all_norms d1) :
    ∃ pre t0 post,
      ensure_group d1 T = pre ++ (T, t0) :: post ∧
      (∀ gt ∈ pre, gt.1 ≠ T) ∧ (∀ gt ∈ post, gt.1 ≠ T) ∧
      (upsert_value (tableFor (ensure_group d1 T) T) ck item) =
        (sorted_table (t0 ++ [(ck, item)]), false) ∧
      set_key (ensure_group d1 T) T
        (upsert_value (tableFor (ensure_group d1 T) T) ck item).1 =
        pre ++ (T, sorted_table (t0 ++ [(ck, item)])) :: post ∧
      (d1 = pre ++ (T, t0) :: post ∨ (pre = d1 ∧ t0 = [] ∧ post = [])) := by
  rcases ensure_group_char d1 T hwf with ⟨pre, t0, post, hE, hpre, hpost, hcase⟩
  have ht0 : ∀ p ∈ t0, p.1 ≠ ck := by
    rcases hcase with hd | ⟨hp, ht, hq⟩
    · intro p hp hcon
      apply hfresh
      rw [hd]
      refine mem_all_norms.mpr ⟨(T, t0),
        List.mem_append_right _ (List.mem_cons_self _ _), ?_⟩
      rw [← hcon]
      exact List.mem_map.mpr ⟨p, hp, rfl⟩
    · rw [ht]
      simp
  have htf : tableFor (ensure_group d1 T) T = t0 := by
    rw [hE]
    exact tableFor_split T t0 pre post hpre
  have hui := upsertItems_absent ck item t0 ht0
  have hup : upsert_value (tableFor (ensure_group d1 T) T) ck item =
      (sorted_table (t0 ++ [(ck, item)]), false) := by
    rw [htf]
    unfold upsert_value
    rw [hui]
  have hsk : set_key (ensure_group d1 T) T
      (upsert_value (tableFor (ensure_group d1 T) T) ck item).1 =
      pre ++ (T, sorted_table (t0 ++ [(ck, item)])) :: post := by
    rw [hup, hE]
    exact set_key_split T t0 _ pre post hpre hpost
  exact ⟨pre, t0, post, hE, hpre, hpost, hup, hsk, hcase⟩

theorem sorted_append_one_perm (t0 : Table) (ck : String) (item : Item) :
    (table_norms (sorted_table (t0 ++ [(ck, item)]))).Perm
      (normalize_key ck :: table_norms t0) := by
  refine (table_norms_perm (sorted_table_perm _)).trans ?_
  rw [table_norms_append]
  exact List.perm_append_singleton _ _

theorem add_target_invariants (d1 : Document) (T ck : String) (item : Item)
    (hwf : WFDoc d1) (hnn : NormNodup d1) (hsort : DocSorted d1)
    (hfresh : normalize_key ck ∉ all_norms d1) :
    NormNodup (set_key (ensure_group d1 T) T
      (upsert_value (tableFor (ensure_group d1 T) T) ck item).1) ∧
    DocSorted (set_key (ensure_group d1 T) T
      (upsert_value (tableFor (ensure_group d1 T) T) ck item).1) := by
  rcases upsert_fresh_char d1 T ck item hwf hfresh with
    ⟨pre, t0, post, hE, hpre, hpost, hup, hsk, hcase⟩
  rw [hsk]
  have hperm := sorted_append_one_perm t0 ck item
  rcases hcase with hd | ⟨hp, ht, hq⟩
  · constructor
    · exact @NormNodup_insert pre post T t0 T _ ck (hd ▸ hnn) hperm
        (hd ▸ hfresh)
    · have hs := DocSorted_split (hd ▸ hsort)
      exact DocSorted_assemble T hs.1 (sorted_table_sorted _) hs.2.2
  · subst hp
    subst ht
    subst hq
    constructor
    · have hbase : NormNodup (pre ++ ((T, ([] : Table)) :: [])) := by
        show (all_norms (pre ++ [(T, ([] : Table))])).Nodup
        rw [all_norms_append]
        simpa [all_norms, table_norms] using hnn
      have hfresh' : normalize_key ck ∉
          all_norms (pre ++ ((T, ([] : Table)) :: [])) := by
        rw [all_norms_append]
        simpa [all_norms, table_norms] using hfresh
      exact @NormNodup_insert pre [] T [] T _ ck hbase hperm hfresh'
    · refine DocSorted_assemble T hsort (sorted_table_sorted _) ?_
      intro gt hgt
      simp at hgt

/-! ### Characterizing the old-group removal -/

theorem remove_entry_char (G k : String) (it : Item) (t1 t2 : Table)
    (pre post : Document)
    (hpre : ∀ gt ∈ pre, gt.1 ≠ G) (hpost : ∀ gt ∈ post, gt.1 ≠ G)
    (hkeys : ∀ p ∈ t1 ++ t2, p.1 ≠ k) :
    remove_app_from_group (pre ++ (G, t1 ++ (k, it) :: t2) :: post) G k =
      (if (t1 ++ t2).isEmpty then pre ++ post
       else pre ++ (G, sorted_table (t1 ++ t2)) :: post, true) := by
  rw [remove_app_from_group_char G k _ pre post hpre hpost
    ⟨(k, it), List.mem_append_right _ (List.mem_cons_self _ _), rfl⟩]
  have hfil : (t1 ++ (k, it) :: t2).filter (fun p => !(p.1 == k)) =
      t1 ++ t2 := by
    rw [List.filter_append,
      @List.filter_cons_of_neg _ (fun p => !(p.1 == k)) (k, it) t2 (by simp),
      List.filter_eq_self.mpr
        (fun q hq => by simpa using hkeys q (List.mem_append_left _ hq)),
      List.filter_eq_self.mpr
        (fun q hq => by simpa using hkeys q (List.mem_append_right _ hq))]
  rw [hfil]

theorem removed_doc_invariants (G k : String) (it : Item) (t1 t2 : Table)
    (pre post : Document)
    (hwf : WFDoc (pre ++ (G, t1 ++ (k, it) :: t2) :: post))
    (hnn : NormNodup (pre ++ (G, t1 ++ (k, it) :: t2) :: post))
    (hsort : DocSorted (pre ++ (G, t1 ++ (k, it) :: t2) :: post)) :
    ∀ d1v, d1v = (if (t1 ++ t2).isEmpty then pre ++ post
      else pre ++ (G, sorted_table (t1 ++ t2)) :: post) →
    WFDoc d1v ∧ NormNodup d1v ∧ DocSorted d1v ∧
    normalize_key k ∉ all_norms d1v := by
  intro d1v hd
  rcases NormNodup_split hnn with ⟨h1, h2, h3, h4, h5, h6⟩
  rcases WFDoc_split hwf with ⟨w1, w2, w3⟩
  rcases DocSorted_split hsort with ⟨s1, s2, s3⟩
  have hkt : normalize_key k ∈ table_norms (t1 ++ (k, it) :: t2) := by
    rw [table_norms_append]
    exact List.mem_append_right _ (List.mem_cons_self _ _)
  have hnorms : table_norms (t1 ++ (k, it) :: t2) =
      table_norms t1 ++ normalize_key k :: table_norms t2 := by
    rw [table_norms_append]
    rfl
  have h2' : (normalize_key k :: (table_norms t1 ++ table_norms t2)).Nodup := by
    have := h2
    rw [hnorms, List.nodup_middle] at this
    exact this
  have hknotin : normalize_key k ∉ table_norms t1 ++ table_norms t2 :=
    (List.nodup_cons.mp h2').1
  by_cases hemp : ((t1 ++ t2).isEmpty) = true
  · rw [hd, if_pos hemp]
    refine ⟨?_, ?_, ?_, ?_⟩
    · show (group_names (pre ++ post)).Nodup
      rw [group_names_append]
      exact w3
    · show (all_norms (pre ++ post)).Nodup
      rw [all_norms_append]
      exact List.nodup_append.mpr ⟨h1, h3, h5⟩
    · intro gt hgt
      rcases List.mem_append.mp hgt with hm | hm
      exacts [s1 gt hm, s3 gt hm]
    · intro hcon
      rw [all_norms_append] at hcon
      rcases List.mem_append.mp hcon with hm | hm
      · exact h4 hm hkt
      · exact h6 hkt hm
  · rw [hd, if_neg hemp]
    have hpermv : (table_norms (sorted_table (t1 ++ t2))).Perm
        (table_norms t1 ++ table_norms t2) := by
      refine (table_norms_perm (sorted_table_perm _)).trans ?_
      rw [table_norms_append]
    have hndv : (table_norms (sorted_table (t1 ++ t2))).Nodup :=
      hpermv.nodup_iff.mpr (List.nodup_cons.mp h2').2
    refine ⟨WFDoc_replace _ hwf, ?_, ?_, ?_⟩
    · refine NormNodup_subset G hnn hndv ?_
      intro a ha
      have ha' := hpermv.mem_iff.mp ha
      rw [hnorms]
      rcases List.mem_append.mp ha' with hm | hm
      · exact List.mem_append_left _ hm
      · exact List.mem_append_right _ (List.mem_cons_of_mem _ hm)
    · exact DocSorted_assemble G s1 (sorted_table_sorted _) s3
    · intro hcon
      have e1 : all_norms (pre ++ (G, sorted_table (t1 ++ t2)) :: post) =
          all_norms pre ++ (table_norms (sorted_table (t1 ++ t2)) ++
            all_norms post) := by
        rw [all_norms_append, all_norms_cons]
      rw [e1] at hcon
      rcases List.mem_append.mp hcon with hm | hm
      · exact h4 hm hkt
      rcases List.mem_append.mp hm with hm' | hm'
      · exact hknotin (hpermv.mem_iff.mp hm')
      · exact h6 hkt hm'

/-! ### Characterizing the in-place update -/

theorem update_same_group_result (G ck : String) (old item : Item)
    (t1 t2 : Table) (pre post : Document)
    (hpre : ∀ gt ∈ pre, gt.1 ≠ G) (hpost : ∀ gt ∈ post, gt.1 ≠ G)
    (ht1k : ∀ p ∈ t1, p.1 ≠ ck) :
    set_key (ensure_group (pre ++ (G, t1 ++ (ck, old) :: t2) :: post) G) G
      (upsert_value
        (tableFor
          (ensure_group (pre ++ (G, t1 ++ (ck, old) :: t2) :: post) G) G)
        ck item).1 =
      pre ++ (G, sorted_table (t1 ++ (ck, item) :: t2)) :: post ∧
    (upsert_value
      (tableFor
        (ensure_group (pre ++ (G, t1 ++ (ck, old) :: t2) :: post) G) G)
      ck item).2 = true := by
  have hEG : ensure_group (pre ++ (G, t1 ++ (ck, old) :: t2) :: post) G =
      pre ++ (G, t1 ++ (ck, old) :: t2) :: post :=
    ensure_group_present _ _ ⟨(G, t1 ++ (ck, old) :: t2),
      List.mem_append_right _ (List.mem_cons_self _ _), rfl⟩
  have htf : tableFor (pre ++ (G, t1 ++ (ck, old) :: t2) :: post) G =
      t1 ++ (ck, old) :: t2 := tableFor_split _ _ pre post hpre
  have hup : upsert_value
      (tableFor
        (ensure_group (pre ++ (G, t1 ++ (ck, old) :: t2) :: post) G) G)
      ck item = (sorted_table (t1 ++ (ck, item) :: t2), true) := by
    rw [hEG, htf]
    unfold upsert_value
    rw [upsertItems_present ck item old t2 t1 ht1k]
  refine ⟨?_, by rw [hup]⟩
  rw [hup, hEG]
  exact set_key_split G _ _ pre post hpre hpost

/-! ## C10: invariant preservation -/

/-- C10: on a well-formed document (distinct section names, as TOML parsing
guarantees) whose group tables are each sorted by case-insensitive key and
whose records have globally distinct case-folded keys, every repository
mutation preserves both invariants: whatever document `add_or_update`
returns, and the document `remove` returns, again have every group sorted by
case-insensitive key and no case-folded key occurring twice. -/
theorem mutations_preserve_invariants
    (document : Document) (app source group description : String)
    (hwf : WFDoc document) (hnn : NormNodup document)
    (hsort : DocSorted document) :
    (∀ o d', add_or_update document app source group description = .ok (o, d') →
      NormNodup d' ∧ DocSorted d') ∧
    (NormNodup (removeApp document app).2 ∧
      DocSorted (removeApp document app).2) := by
  constructor
  · intro o d' h
    cases hres : resolve_group_name document group with
    | error e =>
      rw [add_or_update.eq_def, hres] at h
      exact absurd h (by simp)
    | ok T =>
      cases hfind : find_app document app with
      | none =>
        rw [add_or_update_char_new document app source group description T
          hres hfind] at h
        have hd' : d' = set_key (ensure_group document T) T
            (upsert_value (tableFor (ensure_group document T) T) app
              (mkItem source description)).1 :=
          (congrArg Prod.snd (Except.ok.inj h)).symm
        rw [hd']
        exact add_target_invariants document T app (mkItem source description)
          hwf hnn hsort (not_mem_all_norms_of_find_none hfind)
      | some r =>
        rcases find_app_eq_some_split app r document hfind with
          ⟨pre, t, post, hd0, hpren, t1, it, t2, hts, ht1n, hknorm, hval, hcom⟩
        subst hd0
        subst hts
        rcases WFDoc_split hwf with ⟨w1, w2, _⟩
        have ht1k : ∀ p ∈ t1, p.1 ≠ r.key := fun p hp hcon =>
          ht1n p hp (by rw [hcon, hknorm])
        by_cases hgr : r.group = T
        · subst hgr
          rw [add_or_update_char_same _ app source group description r.group r
            hres hfind rfl] at h
          rcases update_same_group_result r.group r.key it
            (mkItem source description) t1 t2 pre post w1 w2 ht1k with
            ⟨hres2, _⟩
          have hd' : d' = set_key
              (ensure_group
                (pre ++ (r.group, t1 ++ (r.key, it) :: t2) :: post) r.group)
              r.group
              (upsert_value
                (tableFor (ensure_group
                  (pre ++ (r.group, t1 ++ (r.key, it) :: t2) :: post) r.group)
                  r.group)
                r.key (mkItem source description)).1 :=
            (congrArg Prod.snd (Except.ok.inj h)).symm
          rw [hd', hres2]
          constructor
          · have hXt : table_norms
                (t1 ++ (r.key, mkItem source description) :: t2) =
                table_norms (t1 ++ (r.key, it) :: t2) := by
              rw [table_norms_append, table_norms_append]
              rfl
            refine NormNodup_replace r.group hnn ?_
            rw [← hXt]
            exact table_norms_perm (sorted_table_perm _)
          · rcases DocSorted_split hsort with ⟨s1, _, s3⟩
            exact DocSorted_assemble r.group s1 (sorted_table_sorted _) s3
        · rcases NormNodup_split hnn with ⟨_, h2, _, _, _, _⟩
          have hnorms : table_norms (t1 ++ (r.key, it) :: t2) =
              table_norms t1 ++ normalize_key r.key :: table_norms t2 := by
            rw [table_norms_append]
            rfl
          have h2' : (normalize_key r.key ::
              (table_norms t1 ++ table_norms t2)).Nodup := by
            have hthis := h2
            rw [hnorms, List.nodup_middle] at hthis
            exact hthis
          have hknotin := (List.nodup_cons.mp h2').1
          have hkeys : ∀ p ∈ t1 ++ t2, p.1 ≠ r.key := by
            intro p hp hcon
            apply hknotin
            rw [← hcon, ← table_norms_append]
            exact List.mem_map.mpr ⟨p, hp, rfl⟩
          have hremchar := remove_entry_char r.group r.key it t1 t2 pre post
            w1 w2 hkeys
          have hrem2 : (remove_app_from_group
              (pre ++ (r.group, t1 ++ (r.key, it) :: t2) :: post)
              r.group r.key).2 = true := by
            rw [hremchar]
          rw [add_or_update_char_moved _ app source group description T r
            hres hfind hgr hrem2] at h
          have hrem1 : (remove_app_from_group
              (pre ++ (r.group, t1 ++ (r.key, it) :: t2) :: post)
              r.group r.key).1 =
              (if (t1 ++ t2).isEmpty then pre ++ post
               else pre ++ (r.group, sorted_table (t1 ++ t2)) :: post) := by
            rw [hremchar]
          rcases removed_doc_invariants r.group r.key it t1 t2 pre post
            hwf hnn hsort _ rfl with ⟨v1, v2, v3, v4⟩
          have hd' : d' = set_key
              (ensure_group (remove_app_from_group
                (pre ++ (r.group, t1 ++ (r.key, it) :: t2) :: post)
                r.group r.key).1 T) T
              (upsert_value
                (tableFor (ensure_group (remove_app_from_group
                  (pre ++ (r.group, t1 ++ (r.key, it) :: t2) :: post)
                  r.group r.key).1 T) T)
                r.key (mkItem source description)).1 :=
            (congrArg Prod.snd (Except.ok.inj h)).symm
          rw [hd', hrem1]
          exact add_target_invariants _ T r.key (mkItem source description)
            v1 v2 v3 v4
  · cases hfind : find_app document app with
    | none =>
      have hstep : (removeApp document app).2 = document := by
        simp only [removeApp, hfind]
      rw [hstep]
      exact ⟨hnn, hsort⟩
    | some r =>
      rcases find_app_eq_some_split app r document hfind with
        ⟨pre, t, post, hd0, hpren, t1, it, t2, hts, ht1n, hknorm, hval, hcom⟩
      subst hd0
      subst hts
      rcases WFDoc_split hwf with ⟨w1, w2, _⟩
      rcases NormNodup_split hnn with ⟨_, h2, _, _, _, _⟩
      have hnorms : table_norms (t1 ++ (r.key, it) :: t2) =
          table_norms t1 ++ normalize_key r.key :: table_norms t2 := by
        rw [table_norms_append]
        rfl
      have h2' : (normalize_key r.key ::
          (table_norms t1 ++ table_norms t2)).Nodup := by
        have hthis := h2
        rw [hnorms, List.nodup_middle] at hthis
        exact hthis
      have hknotin := (List.nodup_cons.mp h2').1
      have hkeys : ∀ p ∈ t1 ++ t2, p.1 ≠ r.key := by
        intro p hp hcon
        apply hknotin
        rw [← hcon, ← table_norms_append]
        exact List.mem_map.mpr ⟨p, hp, rfl⟩
      have hremchar := remove_entry_char r.group r.key it t1 t2 pre post
        w1 w2 hkeys
      rcases removed_doc_invariants r.group r.key it t1 t2 pre post
        hwf hnn hsort _ rfl with ⟨_, v2, v3, _⟩
      have hstep : (removeApp
          (pre ++ (r.group, t1 ++ (r.key, it) :: t2) :: post) app).2 =
          (if (t1 ++ t2).isEmpty then pre ++ post
           else pre ++ (r.group, sorted_table (t1 ++ t2)) :: post) := by
        simp only [removeApp, hfind, hremchar]
        rfl
      rw [hstep]
      exact ⟨v2, v3⟩

/-! ## C8: cross-group move and group-section lifecycle -/

theorem find_none_congr_entry (G T : String) (X Y : Table) (hgr : G ≠ T)
    (pre post : Document) :
    ((pre ++ (T, X) :: post).find? (fun gt => gt.1 == G) = none) ↔
    ((pre ++ (T, Y) :: post).find? (fun gt => gt.1 == G) = none) := by
  simp only [List.find?_eq_none, List.mem_append, List.mem_cons]
  constructor
  · intro h gt hm
    rcases hm with hm | hm
    · exact h gt (Or.inl hm)
    rcases hm with rfl | hm
    · simpa using Ne.symm hgr
    · exact h gt (Or.inr (Or.inr hm))
  · intro h gt hm
    rcases hm with hm | hm
    · exact h gt (Or.inl hm)
    rcases hm with rfl | hm
    · simpa using Ne.symm hgr
    · exact h gt (Or.inr (Or.inr hm))

theorem find_none_snoc (G T : String) (X : Table) (hgr : G ≠ T)
    (d : Document) :
    ((d ++ [(T, X)]).find? (fun gt => gt.1 == G) = none) ↔
    (d.find? (fun gt => gt.1 == G) = none) := by
  simp only [List.find?_eq_none, List.mem_append, List.mem_singleton]
  constructor
  · intro h gt hm
    exact h gt (Or.inl hm)
  · intro h gt hm
    rcases hm with hm | rfl
    · exact h gt hm
    · simpa using Ne.symm hgr

/-- C8: when the added app's case-folded key matches an existing record whose
group differs from the resolved target group (and the manifest satisfies the
load-time invariants), `add_or_update` removes the record from its old group —
the old group's section disappears exactly when the record was its last
entry — and upserts it into the target group under its stored
(case-preserved) key; likewise `remove` deletes the old group's section
exactly when the removed record was its last entry. -/
theorem add_move_and_remove_group_lifecycle
    (document : Document) (app source group description T : String)
    (r : AppRecord)
    (hwf : WFDoc document) (hnn : NormNodup document)
    (hsort : DocSorted document)
    (hres : resolve_group_name document group = .ok T)
    (hfind : find_app document app = some r)
    (hgr : r.group ≠ T) :
    (∃ d',
      add_or_update document app source group description =
        .ok (⟨r.key, T, description, false, some r.group, some r.source⟩,
          d') ∧
      (∃ tT, d'.find? (fun gt => gt.1 == T) = some (T, tT) ∧
        (r.key, mkItem source description) ∈ tT) ∧
      ((d'.find? (fun gt => gt.1 == r.group) = none) ↔
        (tableFor document r.group).length = 1)) ∧
    ((removeApp document app).1 =
        ⟨true, some r.key, some r.source, some r.group⟩ ∧
      (((removeApp document app).2.find? (fun gt => gt.1 == r.group) = none) ↔
        (tableFor document r.group).length = 1)) := by
  rcases find_app_eq_some_split app r document hfind with
    ⟨pre, t, post, hd0, hpren, t1, it, t2, hts, ht1n, hknorm, hval, hcom⟩
  subst hd0
  subst hts
  rcases WFDoc_split hwf with ⟨w1, w2, _⟩
  rcases NormNodup_split hnn with ⟨_, h2, _, _, _, _⟩
  have hnorms : table_norms (t1 ++ (r.key, it) :: t2) =
      table_norms t1 ++ normalize_key r.key :: table_norms t2 := by
    rw [table_norms_append]
    rfl
  have h2' : (normalize_key r.key ::
      (table_norms t1 ++ table_norms t2)).Nodup := by
    have hthis := h2
    rw [hnorms, List.nodup_middle] at hthis
    exact hthis
  have hknotin := (List.nodup_cons.mp h2').1
  have hkeys : ∀ p ∈ t1 ++ t2, p.1 ≠ r.key := by
    intro p hp hcon
    apply hknotin
    rw [← hcon, ← table_norms_append]
    exact List.mem_map.mpr ⟨p, hp, rfl⟩
  have hremchar := remove_entry_char r.group r.key it t1 t2 pre post
    w1 w2 hkeys
  have hlen : ((t1 ++ (r.key, it) :: t2).length = 1) ↔
      ((t1 ++ t2).isEmpty = true) := by
    simp only [List.length_append, List.length_cons, List.isEmpty_iff,
      List.append_eq_nil, ← List.length_eq_zero]
    omega
  have hD1iff : ∀ d1v : Document,
      d1v = (if (t1 ++ t2).isEmpty then pre ++ post
        else pre ++ (r.group, sorted_table (t1 ++ t2)) :: post) →
      ((d1v.find? (fun gt => gt.1 == r.group) = none) ↔
        (t1 ++ t2).isEmpty = true) := by
    intro d1v hd
    by_cases hemp : ((t1 ++ t2).isEmpty) = true
    · rw [hd, if_pos hemp]
      simp only [List.find?_eq_none, hemp, iff_true]
      intro gt hm
      rcases List.mem_append.mp hm with hm' | hm'
      · simpa using w1 gt hm'
      · simpa using w2 gt hm'
    · rw [hd, if_neg hemp]
      rw [find?_group_split r.group _ pre post w1]
      simp [hemp]
  refine ⟨?_, ?_⟩
  · rcases removed_doc_invariants r.group r.key it t1 t2 pre post
      hwf hnn hsort _ rfl with ⟨v1, _, _, v4⟩
    rcases upsert_fresh_char
      (if (t1 ++ t2).isEmpty then pre ++ post
       else pre ++ (r.group, sorted_table (t1 ++ t2)) :: post)
      T r.key (mkItem source description) v1 v4 with
      ⟨pre2, t0, post2, hE, hpre2, hpost2, hup, hsk, hcase⟩
    have hrem2 : (remove_app_from_group
        (pre ++ (r.group, t1 ++ (r.key, it) :: t2) :: post)
        r.group r.key).2 = true := by
      rw [hremchar]
    have hrem1 : (remove_app_from_group
        (pre ++ (r.group, t1 ++ (r.key, it) :: t2) :: post)
        r.group r.key).1 =
        (if (t1 ++ t2).isEmpty then pre ++ post
         else pre ++ (r.group, sorted_table (t1 ++ t2)) :: post) := by
      rw [hremchar]
    have hadd := add_or_update_char_moved _ app source group description T r
      hres hfind hgr hrem2
    rw [hrem1, hsk, hup] at hadd
    refine ⟨pre2 ++ (T, sorted_table
      (t0 ++ [(r.key, mkItem source description)])) :: post2, hadd, ?_, ?_⟩
    · refine ⟨sorted_table (t0 ++ [(r.key, mkItem source description)]),
        find?_group_split T _ pre2 post2 hpre2, ?_⟩
      exact (sorted_table_perm _).mem_iff.mpr
        (List.mem_append_right _ (List.mem_cons_self _ _))
    · rw [tableFor_split r.group _ pre post w1, hlen]
      rcases hcase with hD | ⟨hp, ht, hq⟩
      · exact (find_none_congr_entry r.group T _ t0 hgr pre2 post2).trans
          (hD1iff _ hD.symm)
      · subst hp
        subst hq
        exact (find_none_snoc r.group T _ hgr _).trans (hD1iff _ rfl)
  · have hremOut : removeApp
        (pre ++ (r.group, t1 ++ (r.key, it) :: t2) :: post) app =
        (⟨true, some r.key, some r.source, some r.group⟩,
         if (t1 ++ t2).isEmpty then pre ++ post
         else pre ++ (r.group, sorted_table (t1 ++ t2)) :: post) := by
      simp only [removeApp, hfind, hremchar]
      rfl
    refine ⟨?_, ?_⟩
    · rw [hremOut]
    · rw [hremOut, tableFor_split r.group _ pre post w1, hlen]
      exact hD1iff _ rfl

/-- C8 (witness): moving `foo` from the singleton group `dev` to `tools`
deletes the `dev` section and places the record under `tools`; removing
`foo` likewise deletes the `dev` section. -/
theorem add_move_and_remove_group_lifecycle_witness :
    (∃ d',
      add_or_update [("dev", [("foo", ⟨"uv", "d"⟩)])] "foo" "cask" "tools"
          "n" =
        .ok (⟨"foo", "tools", "n", false, some "dev", some "uv"⟩, d') ∧
      (∃ tT, d'.find? (fun gt => gt.1 == "tools") = some ("tools", tT) ∧
        ("foo", mkItem "cask" "n") ∈ tT) ∧
      ((d'.find? (fun gt => gt.1 == "dev") = none) ↔
        (tableFor [("dev", [("foo", ⟨"uv", "d"⟩)])] "dev").length = 1)) ∧
    ((removeApp [("dev", [("foo", ⟨"uv", "d"⟩)])] "foo").1 =
        ⟨true, some "foo", some "uv", some "dev"⟩ ∧
      (((removeApp [("dev", [("foo", ⟨"uv", "d"⟩)])] "foo").2.find?
          (fun gt => gt.1 == "dev") = none) ↔
        (tableFor [("dev", [("foo", ⟨"uv", "d"⟩)])] "dev").length = 1)) :=
  add_move_and_remove_group_lifecycle [("dev", [("foo", ⟨"uv", "d"⟩)])]
    "foo" "cask" "tools" "n" "tools" ⟨"dev", "foo", "uv", "d"⟩
    (by unfold WFDoc; decide) (by unfold NormNodup; decide)
    (by unfold DocSorted TableSorted; decide) rfl rfl (by decide)

/-! ## C6: idempotence of add_or_update -/

theorem getLast?_none {α : Type} : ∀ {l : List α}, l.getLast? = none → l = []
  | [], _ => rfl
  | [_], h => by simp at h
  | _ :: y :: rest, h => by
    rw [List.getLast?_cons_cons] at h
    exact absurd (getLast?_none h) (by simp)

/-- Re-resolving the same group argument after a mutation that either keeps
the group names, drops one group other than the resolved target, or appends
the resolved target at the end, yields the same target. -/
theorem resolve_stable_of_names (document d1 : Document) (group T : String)
    (hres : resolve_group_name document group = .ok T)
    (hnames :
      group_names d1 = group_names document ∨
      (∃ n1 n2 G, T ≠ G ∧ group_names document = n1 ++ G :: n2 ∧
        group_names d1 = n1 ++ n2) ∨
      (∃ base, group_names d1 = base ++ [T])) :
    resolve_group_name d1 group = .ok T := by
  have hg : ¬ pystrip group = "" := by
    intro hc
    simp [resolve_group_name, hc] at hres
  rw [resolve_group_name_eq _ _ hg] at hres
  have hres' : (last_match (group_names document)
      (normalize_key (pystrip group))).getD (pystrip group) = T :=
    Except.ok.inj hres
  rw [resolve_group_name_eq _ _ hg]
  rcases hnames with he | ⟨n1, n2, G, hne, hdoc, hd1⟩ | ⟨base, hd1⟩
  · rw [he]
    exact congrArg Except.ok hres'
  · rw [hd1]
    cases hlm : last_match (group_names document)
        (normalize_key (pystrip group)) with
    | some T2 =>
      rw [hlm] at hres'
      have hT : T2 = T := hres'
      subst hT
      rw [hdoc] at hlm
      rw [last_match_remove n1 n2 G _ T2 hlm hne]
      rfl
    | none =>
      rw [hlm] at hres'
      rw [hdoc, last_match] at hlm
      have hfe := getLast?_none hlm
      rw [List.filter_append] at hfe
      have h1 := (List.append_eq_nil.mp hfe).1
      have h2 := (List.append_eq_nil.mp hfe).2
      have h2' : (n2.filter (fun x =>
          normalize_key x == normalize_key (pystrip group))) = [] := by
        by_cases hG : ((normalize_key G ==
            normalize_key (pystrip group))) = true
        · rw [@List.filter_cons_of_pos _
            (fun x => normalize_key x == normalize_key (pystrip group))
            G n2 hG] at h2
          exact absurd h2 (by simp)
        · rw [@List.filter_cons_of_neg _
            (fun x => normalize_key x == normalize_key (pystrip group))
            G n2 hG] at h2
          exact h2
      rw [last_match, List.filter_append, h1, h2']
      exact congrArg Except.ok hres'
  · rw [hd1]
    have hTnorm : (normalize_key T ==
        normalize_key (pystrip group)) = true := by
      cases hlm : last_match (group_names document)
          (normalize_key (pystrip group)) with
      | some T2 =>
        rw [hlm] at hres'
        have hT : T2 = T := hres'
        subst hT
        exact last_match_norm hlm
      | none =>
        rw [hlm] at hres'
        rw [← hres']
        simp
    rw [last_match_append_self base _ T hTnorm]
    rfl

/-- Characterization of one successful `add_or_update` pass: the resulting
document splits around the target group's table, which is sorted and
contains the canonical key with the fresh item; the global uniqueness
invariant is preserved and the group argument still resolves to the same
target. -/
theorem add_once_char (document : Document)
    (app source group description : String)
    (hwf : WFDoc document) (hnn : NormNodup document)
    (hsort : DocSorted document)
    (o1 : AddAppOutcome) (d1 : Document)
    (h : add_or_update document app source group description = .ok (o1, d1)) :
    ∃ T ck pre2 u1 u2 post2,
      o1.app_key = ck ∧ o1.group = T ∧
      normalize_key ck = normalize_key app ∧
      resolve_group_name d1 group = .ok T ∧
      d1 = pre2 ++ (T, u1 ++ (ck, mkItem source description) :: u2) ::
        post2 ∧
      (∀ gt ∈ pre2, gt.1 ≠ T) ∧ (∀ gt ∈ post2, gt.1 ≠ T) ∧
      TableSorted (u1 ++ (ck, mkItem source description) :: u2) ∧
      NormNodup d1 := by
  cases hres : resolve_group_name document group with
  | error e =>
    rw [add_or_update.eq_def, hres] at h
    exact absurd h (by simp)
  | ok T =>
    cases hfind : find_app document app with
    | none =>
      rw [add_or_update_char_new document app source group description T
        hres hfind] at h
      have hpair := Except.ok.inj h
      have ho : o1 = ⟨app, T, description,
          (upsert_value (tableFor (ensure_group document T) T) app
            (mkItem source description)).2, none, none⟩ :=
        (congrArg Prod.fst hpair).symm
      have hd : d1 = set_key (ensure_group document T) T
          (upsert_value (tableFor (ensure_group document T) T) app
            (mkItem source description)).1 :=
        (congrArg Prod.snd hpair).symm
      rcases upsert_fresh_char document T app (mkItem source description)
        hwf (not_mem_all_norms_of_find_none hfind) with
        ⟨pre0, t0, post0, hE, hpre0, hpost0, hup, hsk, hcase⟩
      have hd1 : d1 = pre0 ++ (T, sorted_table
          (t0 ++ [(app, mkItem source description)])) :: post0 := by
        rw [hd, hsk]
      have hmem : (app, mkItem source description) ∈
          sorted_table (t0 ++ [(app, mkItem source description)]) :=
        (sorted_table_perm _).mem_iff.mpr
          (List.mem_append_right _ (List.mem_cons_self _ _))
      rcases List.append_of_mem hmem with ⟨u1, u2, hsplit⟩
      have hnn1 : NormNodup d1 := by
        rw [hd]
        exact (add_target_invariants document T app
          (mkItem source description) hwf hnn hsort
          (not_mem_all_norms_of_find_none hfind)).1
      have hres1 : resolve_group_name d1 group = .ok T := by
        refine resolve_stable_of_names document d1 group T hres ?_
        rcases hcase with hDoc | ⟨hp, ht, hq⟩
        · left
          rw [hd1, hDoc]
          exact group_names_set pre0 post0 T t0 _
        · right
          right
          refine ⟨group_names document, ?_⟩
          rw [hd1, hp, hq, group_names_append]
          rfl
      refine ⟨T, app, pre0, u1, u2, post0, by rw [ho], by rw [ho], rfl,
        hres1, by rw [hd1, hsplit], hpre0, hpost0, ?_, hnn1⟩
      rw [← hsplit]
      exact sorted_table_sorted _
    | some r =>
      rcases find_app_eq_some_split app r document hfind with
        ⟨pre, t, post, hd0, hpren, t1, it, t2, hts0, ht1n, hknorm, hval,
          hcom⟩
      subst hd0
      subst hts0
      rcases WFDoc_split hwf with ⟨w1, w2, _⟩
      have ht1k : ∀ p ∈ t1, p.1 ≠ r.key := fun p hp hcon =>
        ht1n p hp (by rw [hcon, hknorm])
      by_cases hgr : r.group = T
      · subst hgr
        rw [add_or_update_char_same _ app source group description r.group r
          hres hfind rfl] at h
        have hpair := Except.ok.inj h
        have ho : o1 = ⟨r.key, r.group, description,
            (upsert_value (tableFor (ensure_group
              (pre ++ (r.group, t1 ++ (r.key, it) :: t2) :: post) r.group)
              r.group) r.key (mkItem source description)).2,
            none, some r.source⟩ :=
          (congrArg Prod.fst hpair).symm
        have hd : d1 = set_key (ensure_group
            (pre ++ (r.group, t1 ++ (r.key, it) :: t2) :: post) r.group)
            r.group
            (upsert_value (tableFor (ensure_group
              (pre ++ (r.group, t1 ++ (r.key, it) :: t2) :: post) r.group)
              r.group) r.key (mkItem source description)).1 :=
          (congrArg Prod.snd hpair).symm
        rcases update_same_group_result r.group r.key it
          (mkItem source description) t1 t2 pre post w1 w2 ht1k with
          ⟨hset, hflag⟩
        have hd1 : d1 = pre ++ (r.group, sorted_table
            (t1 ++ (r.key, mkItem source description) :: t2)) :: post := by
          rw [hd, hset]
        have hmem : (r.key, mkItem source description) ∈
            sorted_table (t1 ++ (r.key, mkItem source description) :: t2) :=
          (sorted_table_perm _).mem_iff.mpr
            (List.mem_append_right _ (List.mem_cons_self _ _))
        rcases List.append_of_mem hmem with ⟨u1, u2, hsplit⟩
        have hnn1 : NormNodup d1 := by
          rw [hd1]
          refine NormNodup_replace r.group hnn ?_
          have hXt : table_norms
              (t1 ++ (r.key, mkItem source description) :: t2) =
              table_norms (t1 ++ (r.key, it) :: t2) := by
            rw [table_norms_append, table_norms_append]
            rfl
          rw [← hXt]
          exact table_norms_perm (sorted_table_perm _)
        have hres1 : resolve_group_name d1 group = .ok r.group := by
          refine resolve_stable_of_names _ d1 group r.group hres ?_
          left
          rw [hd1]
          exact group_names_set pre post r.group _ _
        refine ⟨r.group, r.key, pre, u1, u2, post, by rw [ho], by rw [ho],
          hknorm, hres1, by rw [hd1, hsplit], w1, w2, ?_, hnn1⟩
        rw [← hsplit]
        exact sorted_table_sorted _
      · rcases NormNodup_split hnn with ⟨_, h2, _, _, _, _⟩
        have hnorms : table_norms (t1 ++ (r.key, it) :: t2) =
            table_norms t1 ++ normalize_key r.key :: table_norms t2 := by
          rw [table_norms_append]
          rfl
        have h2' : (normalize_key r.key ::
            (table_norms t1 ++ table_norms t2)).Nodup := by
          have hthis := h2
          rw [hnorms, List.nodup_middle] at hthis
          exact hthis
        have hknotin := (List.nodup_cons.mp h2').1
        have hkeys : ∀ p ∈ t1 ++ t2, p.1 ≠ r.key := by
          intro p hp hcon
          apply hknotin
          rw [← hcon, ← table_norms_append]
          exact List.mem_map.mpr ⟨p, hp, rfl⟩
        have hremchar := remove_entry_char r.group r.key it t1 t2 pre post
          w1 w2 hkeys
        have hrem2 : (remove_app_from_group
            (pre ++ (r.group, t1 ++ (r.key, it) :: t2) :: post)
            r.group r.key).2 = true := by
          rw [hremchar]
        have hrem1 : (remove_app_from_group
            (pre ++ (r.group, t1 ++ (r.key, it) :: t2) :: post)
            r.group r.key).1 =
            (if (t1 ++ t2).isEmpty then pre ++ post
             else pre ++ (r.group, sorted_table (t1 ++ t2)) :: post) := by
          rw [hremchar]
        rw [add_or_update_char_moved _ app source group description T r
          hres hfind hgr hrem2] at h
        rcases removed_doc_invariants r.group r.key it t1 t2 pre post
          hwf hnn hsort _ rfl with ⟨v1, v2, v3, v4⟩
        rcases upsert_fresh_char
          (if (t1 ++ t2).isEmpty then pre ++ post
           else pre ++ (r.group, sorted_table (t1 ++ t2)) :: post)
          T r.key (mkItem source description) v1 v4 with
          ⟨pre2, t0, post2, hE, hpre2, hpost2, hup, hsk, hcase⟩
        have hpair := Except.ok.inj h
        have ho : o1 = ⟨r.key, T, description,
            (upsert_value (tableFor (ensure_group (remove_app_from_group
              (pre ++ (r.group, t1 ++ (r.key, it) :: t2) :: post)
              r.group r.key).1 T) T) r.key
              (mkItem source description)).2,
            some r.group, some r.source⟩ :=
          (congrArg Prod.fst hpair).symm
        have hd : d1 = set_key (ensure_group (remove_app_from_group
            (pre ++ (r.group, t1 ++ (r.key, it) :: t2) :: post)
            r.group r.key).1 T) T
            (upsert_value (tableFor (ensure_group (remove_app_from_group
              (pre ++ (r.group, t1 ++ (r.key, it) :: t2) :: post)
              r.group r.key).1 T) T) r.key
              (mkItem source description)).1 :=
          (congrArg Prod.snd hpair).symm
        have hd1 : d1 = pre2 ++ (T, sorted_table
            (t0 ++ [(r.key, mkItem source description)])) :: post2 := by
          rw [hd, hrem1, hsk]
        have hmem : (r.key, mkItem source description) ∈
            sorted_table (t0 ++ [(r.key, mkItem source description)]) :=
          (sorted_table_perm _).mem_iff.mpr
            (List.mem_append_right _ (List.mem_cons_self _ _))
        rcases List.append_of_mem hmem with ⟨u1, u2, hsplit⟩
        have hnn1 : NormNodup d1 := by
          rw [hd, hrem1]
          exact (add_target_invariants _ T r.key
            (mkItem source description) v1 v2 v3 v4).1
        have hres1 : resolve_group_name d1 group = .ok T := by
          refine resolve_stable_of_names _ d1 group T hres ?_
          rcases hcase with hD | ⟨hp, ht, hq⟩
          · by_cases hemp : ((t1 ++ t2).isEmpty) = true
            · right
              left
              refine ⟨group_names pre, group_names post, r.group,
                fun hco => hgr hco.symm, ?_, ?_⟩
              · rw [group_names_append]
                rfl
              · rw [hd1, group_names_set pre2 post2 T t0 _, ← hD,
                  if_pos hemp, group_names_append]
            · left
              rw [hd1, group_names_set pre2 post2 T t0 _, ← hD,
                if_neg hemp]
              exact group_names_set pre post r.group _ _
          · right
            right
            subst hp
            subst hq
            refine ⟨group_names
              (if (t1 ++ t2).isEmpty then pre ++ post
               else pre ++ (r.group, sorted_table (t1 ++ t2)) :: post), ?_⟩
            rw [hd1, group_names_append]
            rfl
        refine ⟨T, r.key, pre2, u1, u2, post2, by rw [ho], by rw [ho],
          hknorm, hres1, by rw [hd1, hsplit], hpre2, hpost2, ?_, hnn1⟩
        rw [← hsplit]
        exact sorted_table_sorted _

/-- C6 (counterexample): on the document `[a] FOO = "uv"  # x` /
`foo = "uv"  # x` — same-group case-folded twins, which load accepts, see
C1 — calling `add_or_update` twice with the identical arguments
`("foo", "uv", "b", "x")` matches a different record each time: the second
call reports `existed = false` (not `true`) and produces a different
document from the first call's result. -/
theorem add_or_update_twice_diverges :
    add_or_update [("a", [("FOO", ⟨"uv", "x"⟩), ("foo", ⟨"uv", "x"⟩)])]
      "foo" "uv" "b" "x" =
      .ok (⟨"FOO", "b", "x", false, some "a", some "uv"⟩,
        [("a", [("foo", ⟨"uv", "x"⟩)]), ("b", [("FOO", ⟨"uv", "x"⟩)])]) ∧
    add_or_update
      [("a", [("foo", ⟨"uv", "x"⟩)]), ("b", [("FOO", ⟨"uv", "x"⟩)])]
      "foo" "uv" "b" "x" =
      .ok (⟨"foo", "b", "x", false, some "a", some "uv"⟩,
        [("b", [("FOO", ⟨"uv", "x"⟩), ("foo", ⟨"uv", "x"⟩)])]) ∧
    ([("b", [("FOO", ⟨"uv", "x"⟩), ("foo", ⟨"uv", "x"⟩)])] : Document) ≠
      [("a", [("foo", ⟨"uv", "x"⟩)]), ("b", [("FOO", ⟨"uv", "x"⟩)])] :=
  ⟨rfl, rfl, by decide⟩

/-- C6 (amended): on a document whose case-folded keys are globally unique,
`add_or_update` is idempotent: if a first call returns `(o1, d1)`, repeating
the call with the identical arguments returns `existed = true`, no move, the
existing source as `previous_source`, and leaves `d1` unchanged. -/
theorem add_or_update_idempotent_on_unique_docs
    (document : Document) (app source group description : String)
    (hwf : WFDoc document) (hnn : NormNodup document)
    (hsort : DocSorted document)
    (o1 : AddAppOutcome) (d1 : Document)
    (h : add_or_update document app source group description = .ok (o1, d1)) :
    add_or_update d1 app source group description =
      .ok (⟨o1.app_key, o1.group, description, true, none, some source⟩,
        d1) := by
  rcases add_once_char document app source group description hwf hnn hsort
    o1 d1 h with
    ⟨T, ck, pre2, u1, u2, post2, hok, hogr, hknorm, hres1, hd1, hpre2,
      hpost2, htsor, hnn1⟩
  subst hd1
  have hfind2 := find_app_complete app T ck (mkItem source description)
    u1 u2 pre2 post2 hnn1 hknorm
  have hchar := add_or_update_char_same _ app source group description T
    ⟨T, ck, (mkItem source description).value,
      pystrip (mkItem source description).comment⟩ hres1 hfind2 rfl
  rcases NormNodup_split hnn1 with ⟨_, hn2, _, _, _, _⟩
  have hn2' : (normalize_key ck ::
      (table_norms u1 ++ table_norms u2)).Nodup := by
    have hthis := hn2
    rw [show table_norms (u1 ++ (ck, mkItem source description) :: u2) =
        table_norms u1 ++ normalize_key ck :: table_norms u2 from by
      rw [table_norms_append]
      rfl, List.nodup_middle] at hthis
    exact hthis
  have hu1 : ∀ p ∈ u1, p.1 ≠ ck := by
    intro p hp hcon
    exact (List.nodup_cons.mp hn2').1 (List.mem_append_left _
      (by rw [← hcon]; exact List.mem_map.mpr ⟨p, hp, rfl⟩))
  rcases update_same_group_result T ck (mkItem source description)
    (mkItem source description) u1 u2 pre2 post2 hpre2 hpost2 hu1 with
    ⟨hset, hflag⟩
  rw [hok, hogr, hchar]
  show Except.ok
      ((⟨ck, T, description,
        (upsert_value
          (tableFor (ensure_group (pre2 ++ (T, u1 ++
            (ck, mkItem source description) :: u2) :: post2) T) T)
          ck (mkItem source description)).2, none, some source⟩ :
          AddAppOutcome),
       set_key (ensure_group (pre2 ++ (T, u1 ++
           (ck, mkItem source description) :: u2) :: post2) T) T
         (upsert_value
           (tableFor (ensure_group (pre2 ++ (T, u1 ++
             (ck, mkItem source description) :: u2) :: post2) T) T)
           ck (mkItem source description)).1) =
    Except.ok
      ((⟨ck, T, description, true, none, some source⟩ : AddAppOutcome),
       pre2 ++ (T, u1 ++ (ck, mkItem source description) :: u2) :: post2)
  rw [hset, hflag, sorted_table_of_sorted htsor]

/-- C6 (amended, witness): adding `bar = "uv"` to a one-record document and
then repeating the identical call returns `existed = true` and the same
document. -/
theorem add_or_update_idempotent_witness :
    add_or_update [("dev", [("bar", ⟨"uv", "x"⟩), ("foo", ⟨"uv", "d"⟩)])]
      "bar" "uv" "dev" "x" =
      .ok (⟨"bar", "dev", "x", true, none, some "uv"⟩,
        [("dev", [("bar", ⟨"uv", "x"⟩), ("foo", ⟨"uv", "d"⟩)])]) :=
  add_or_update_idempotent_on_unique_docs
    [("dev", [("foo", ⟨"uv", "d"⟩)])] "bar" "uv" "dev" "x"
    (by unfold WFDoc; decide) (by unfold NormNodup; decide)
    (by unfold DocSorted TableSorted; decide)
    ⟨"bar", "dev", "x", false, none, none⟩
    [("dev", [("bar", ⟨"uv", "x"⟩), ("foo", ⟨"uv", "d"⟩)])] rfl

/-- C10 (witness): instantiation on a two-record sorted document: re-adding
`bar` with a new source and removing `bar` both preserve the invariants. -/
theorem mutations_preserve_invariants_witness :
    (∀ o d', add_or_update [("dev", [("bar", ⟨"uv", "b"⟩),
        ("foo", ⟨"uv", "f"⟩)])] "bar" "cask" "dev" "z" = .ok (o, d') →
      NormNodup d' ∧ DocSorted d') ∧
    (NormNodup (removeApp [("dev", [("bar", ⟨"uv", "b"⟩),
        ("foo", ⟨"uv", "f"⟩)])] "bar").2 ∧
      DocSorted (removeApp [("dev", [("bar", ⟨"uv", "b"⟩),
        ("foo", ⟨"uv", "f"⟩)])] "bar").2) :=
  mutations_preserve_invariants [("dev", [("bar", ⟨"uv", "b"⟩),
    ("foo", ⟨"uv", "f"⟩)])] "bar" "cask" "dev" "z"
    (by unfold WFDoc; decide) (by unfold NormNodup; decide)
    (by unfold DocSorted TableSorted; decide)

end DotApp
